import Mathlib

/-!
Verification of the periodic neighbor-list engine of
`dap/ag/neighborlist.py` (functions `get_distances`, `get_neighbors`,
`get_neighbors_oneway`).

The Python code is shallowly embedded over the real numbers:

* atomic positions are a family `Fin n → Fin 3 → ℝ` (one row per atom);
* the unit cell and the strain are `Matrix (Fin 3) (Fin 3) ℝ` (rows are
  lattice vectors, matching the numpy row-vector convention, so
  `np.dot(v, M)` becomes `Matrix.vecMul v M`);
* `numpy` floating-point arithmetic is modelled by exact real arithmetic,
  `np.sqrt` by `Real.sqrt`, `np.floor`/`np.ceil`/`np.round` by
  `Int.floor`/`Int.ceil`/`round`, and `% 1` on floats by `Int.fract`;
* `np.arange(lo, hi)` over integer-valued bounds is the half-open integer
  interval `[lo, hi)`, embedded as `intRange lo hi`.

Definitions follow the source line by line; the claim theorems are at the
end of the file.
-/

set_option autoImplicit false
set_option maxHeartbeats 1000000

noncomputable section

namespace DAP

/-- A `Fin n` type with `n ≠ 0` is nonempty (used for the row-wise
`np.min`/`np.max` reductions, which require at least one atom). -/
instance finNonempty (n : ℕ) [NeZero n] : Nonempty (Fin n) :=
  ⟨⟨0, Nat.pos_of_ne_zero (NeZero.ne n)⟩⟩

/-- `np.arange(lo, hi)` for integer-valued bounds: the list of integers
`lo, lo+1, ..., hi-1` (empty when `hi ≤ lo`). -/
def intRange (lo hi : ℤ) : List ℤ :=
  (List.range (hi - lo).toNat).map fun (t : ℕ) => lo + (t : ℤ)

section NeighborList

variable {n : ℕ}
variable (positions : Fin n → Fin 3 → ℝ)
variable (cell : Matrix (Fin 3) (Fin 3) ℝ)
variable (cutoff_distance cutoff_radius skin : ℝ)
variable (strain : Matrix (Fin 3) (Fin 3) ℝ)

/-- `strain_tensor = np.eye(3) + strain`. -/
def strainTensor : Matrix (Fin 3) (Fin 3) ℝ :=
  1 + strain

/-- `cell = np.dot(strain_tensor, cell.T).T`. -/
def strainedCell : Matrix (Fin 3) (Fin 3) ℝ :=
  (strainTensor strain * cell.transpose).transpose

/-- `positions = np.dot(strain_tensor, positions.T).T`, row by row. -/
def strainedPositions (a : Fin n) : Fin 3 → ℝ :=
  (strainTensor strain).mulVec (positions a)

/-- `inverse_cell = np.linalg.inv(cell)` (of the strained cell). -/
def inverseCell : Matrix (Fin 3) (Fin 3) ℝ :=
  (strainedCell cell strain)⁻¹

/-- Column norms `np.linalg.norm(inverse_cell, axis=0)`. -/
def colNorm (k : Fin 3) : ℝ :=
  Real.sqrt (∑ c, inverseCell cell strain c k ^ 2)

/-- `num_repeats = cutoff_distance * np.linalg.norm(inverse_cell, axis=0)`. -/
def numRepeats (k : Fin 3) : ℝ :=
  cutoff_distance * colNorm cell strain k

/-- Unwrapped fractional coordinates `np.dot(positions, inverse_cell)` of one
atom (this is also `scaled` in `get_neighbors_oneway`). -/
def rawFrac (a : Fin n) : Fin 3 → ℝ :=
  Matrix.vecMul (strainedPositions positions strain a) (inverseCell cell strain)

/-- `fractional_coords = np.dot(positions, inverse_cell) % 1` (this is also
`scaled0` in `get_neighbors_oneway`). -/
def fracCoords (a : Fin n) (k : Fin 3) : ℝ :=
  Int.fract (rawFrac positions cell strain a k)

section Dense

variable [NeZero n]

/-- `mins = np.min(np.floor(fractional_coords - num_repeats), axis=0)`. -/
def minsZ (k : Fin 3) : ℤ :=
  Finset.univ.inf' Finset.univ_nonempty fun a =>
    ⌊fracCoords positions cell strain a k - numRepeats cell cutoff_distance strain k⌋

/-- `maxs = np.max(np.ceil(fractional_coords + num_repeats), axis=0)`. -/
def maxsZ (k : Fin 3) : ℤ :=
  Finset.univ.sup' Finset.univ_nonempty fun a =>
    ⌈fracCoords positions cell strain a k + numRepeats cell cutoff_distance strain k⌉

/-- The offsets enumerated by `get_distances`: the cartesian product of the
three `np.arange(mins[k], maxs[k])` ranges, flattened in the row-major order
of the source's broadcast sum (axis 2 fastest). -/
def offsetsList : List (Fin 3 → ℤ) :=
  (intRange (minsZ positions cell cutoff_distance strain 0)
      (maxsZ positions cell cutoff_distance strain 0)).flatMap fun o1 =>
    (intRange (minsZ positions cell cutoff_distance strain 1)
        (maxsZ positions cell cutoff_distance strain 1)).flatMap fun o2 =>
      (intRange (minsZ positions cell cutoff_distance strain 2)
          (maxsZ positions cell cutoff_distance strain 2)).map fun o3 => ![o1, o2, o3]

end Dense

/-- `cart_offsets = np.dot(offsets, cell)`, for a single integer offset. -/
def cartOffset (o : Fin 3 → ℤ) : Fin 3 → ℝ :=
  Matrix.vecMul (fun c => (o c : ℝ)) (strainedCell cell strain)

/-- `pv[i][j][k] = positions[j] + cart_offsets[k] - positions[i]`, the
displacement vector of the (i, j, offset) tensor entry. -/
def pv (i j : Fin n) (o : Fin 3 → ℤ) : Fin 3 → ℝ := fun k =>
  strainedPositions positions strain j k + cartOffset cell strain o k
    - strainedPositions positions strain i k

/-- `d2 = np.sum(pv**2, axis=3)`, the squared separation of a tensor entry. -/
def d2off (i j : Fin n) (o : Fin 3 → ℤ) : ℝ :=
  ∑ k, pv positions cell strain i j o k ^ 2

/-- The guarded square root:
`zeros = np.equal(d2, 0.0)`,
`adjusted = np.where(zeros, np.ones_like(d2), d2)`,
`d = np.where(zeros, np.zeros_like(d2), np.sqrt(adjusted))`. -/
def dOff (i j : Fin n) (o : Fin 3 → ℤ) : ℝ :=
  if d2off positions cell strain i j o = 0 then 0
  else Real.sqrt (if d2off positions cell strain i j o = 0 then 1
                  else d2off positions cell strain i j o)

/-- The dense builder's inclusion test `d < cutoff_distance + skin`. -/
def denseKeep (c s d : ℝ) : Prop := d < c + s

/-- The one-way builder's inclusion test `d2 < cutoff_radius**2 + skin`. -/
def onewayKeep (c s d2 : ℝ) : Prop := d2 < c ^ 2 + s

/-- `distances = np.where(d < (cutoff_distance + skin), d, np.zeros_like(d))`:
one entry of the masked distance tensor, at an arbitrary integer offset. -/
def entryOff (i j : Fin n) (o : Fin 3 → ℤ) : ℝ :=
  if dOff positions cell strain i j o < cutoff_distance + skin then
    dOff positions cell strain i j o
  else 0

/-- `get_distances(positions, cell, cutoff_distance, skin, strain)`:
the (natoms, natoms, nunitcells) distance tensor together with the offsets. -/
def get_distances [NeZero n] :
    (Fin n → Fin n →
      Fin (offsetsList positions cell cutoff_distance strain).length → ℝ) ×
      List (Fin 3 → ℤ) :=
  (fun i j k =>
    entryOff positions cell cutoff_distance skin strain i j
      ((offsetsList positions cell cutoff_distance strain).get k),
   offsetsList positions cell cutoff_distance strain)

/-- `h = 1 / np.linalg.norm(inverse_cell, axis=0)` in `get_neighbors_oneway`. -/
def hax (k : Fin 3) : ℝ :=
  1 / colNorm cell strain k

/-- `N = np.floor(2 * cutoff_radius / h) + 1` in `get_neighbors_oneway`. -/
def nRep (k : Fin 3) : ℤ :=
  ⌊2 * cutoff_radius / hax cell strain k⌋ + 1

/-- `offsets = np.int_((scaled0 - scaled).round())`: each atom's own wrapping
offset. -/
def wrapOffA (a : Fin n) (k : Fin 3) : ℤ :=
  round (fracCoords positions cell strain a k - rawFrac positions cell strain a k)

/-- `positions0 = positions + np.dot(offsets, cell)`: the wrapped positions. -/
def positions0 (a : Fin n) (k : Fin 3) : ℝ :=
  strainedPositions positions strain a k +
    Matrix.vecMul (fun c => (wrapOffA positions cell strain a c : ℝ))
      (strainedCell cell strain) k

/-- The candidate offsets enumerated by `get_neighbors_oneway`:
`v0_range = np.arange(0, N[0] + 1)`, `v1_range = np.arange(-N[1], N[1] + 1)`,
`v2_range = np.arange(-N[2], N[2] + 1)`, flattened row-major. -/
def candList : List (Fin 3 → ℤ) :=
  (intRange 0 (nRep cell cutoff_radius strain 0 + 1)).flatMap fun o1 =>
    (intRange (-nRep cell cutoff_radius strain 1)
        (nRep cell cutoff_radius strain 1 + 1)).flatMap fun o2 =>
      (intRange (-nRep cell cutoff_radius strain 2)
          (nRep cell cutoff_radius strain 2 + 1)).map fun o3 => ![o1, o2, o3]

/-- The half-space skip test of `offset_mapfn`:
`if n1 == 0 and (n2 < 0 or (n2 == 0 and n3 < 0)): return`. -/
def skipOff (o : Fin 3 → ℤ) : Prop :=
  o 0 = 0 ∧ (o 1 < 0 ∨ (o 1 = 0 ∧ o 2 < 0))

instance skipOffDecidable (o : Fin 3 → ℤ) : Decidable (skipOff o) :=
  decidable_of_iff (o 0 = 0 ∧ (o 1 < 0 ∨ (o 1 = 0 ∧ o 2 < 0))) Iff.rfl

/-- The candidate offsets that survive the half-space skip and are actually
processed by `offset_mapfn`. -/
def processedList : List (Fin 3 → ℤ) :=
  (candList cell cutoff_radius strain).filter fun o => !decide (skipOff o)

/-- `d = positions0 + displacement - positions0[a]`, squared and summed:
the squared distance used by `atoms_mapfn`. -/
def s2 (a j : Fin n) (o : Fin 3 → ℤ) : ℝ :=
  ∑ k, (positions0 positions cell strain j k + cartOffset cell strain o k
    - positions0 positions cell strain a k) ^ 2

/-- `i = indices[(d**2).sum(1) < (cutoff_radius**2 + skin)]`, followed by
`if n1 == 0 and n2 == 0 and n3 == 0: i = i[i > a]`: the neighbors selected
for atom `a` at one candidate offset. -/
def selectList (a : Fin n) (o : Fin 3 → ℤ) : List (Fin n) :=
  let base := (List.finRange n).filter fun j =>
    decide (s2 positions cell strain a j o < cutoff_radius ^ 2 + skin)
  if o 0 = 0 ∧ o 1 = 0 ∧ o 2 = 0 then base.filter (fun j => decide (a < j))
  else base

/-- `disp[:] = (n1, n2, n3); disp += offsets[i] - offsets[a]`: the recorded
displacement for neighbor `j` of atom `a` found at candidate offset `o`. -/
def dispOf (o : Fin 3 → ℤ) (a j : Fin n) : Fin 3 → ℤ := fun k =>
  o k + wrapOffA positions cell strain j k - wrapOffA positions cell strain a k

/-- The (neighbor, displacement) pairs appended to atom `a`'s lists, in
program order (candidate offsets outer, neighbor indices inner). -/
def onewayPairs (a : Fin n) : List (Fin n × (Fin 3 → ℤ)) :=
  (processedList cell cutoff_radius strain).flatMap fun o =>
    (selectList positions cell cutoff_radius skin strain a o).map fun j =>
      (j, dispOf positions cell strain o a j)

/-- `get_neighbors_oneway(positions, cell, cutoff_radius, skin, strain)`:
per-atom neighbor lists and per-atom displacement lists. -/
def get_neighbors_oneway :
    (Fin n → List (Fin n)) × (Fin n → List (Fin 3 → ℤ)) :=
  (fun a => (onewayPairs positions cell cutoff_radius skin strain a).map Prod.fst,
   fun a => (onewayPairs positions cell cutoff_radius skin strain a).map Prod.snd)

end NeighborList

/-- The (row, column) index pairs of `np.where(di > 0.0)` in row-major order,
mapped to (neighbor index, image offset): the content of `get_neighbors`. -/
def neighborPairs {natoms noff : ℕ} (i : Fin natoms)
    (distances : Fin natoms → Fin natoms → Fin noff → ℝ)
    (offsets : Fin noff → Fin 3 → ℤ) : List (Fin natoms × (Fin 3 → ℤ)) :=
  (List.finRange natoms).flatMap fun j =>
    (List.finRange noff).filterMap fun k =>
      if 0 < distances i j k then some (j, offsets k) else none

/-- `get_neighbors(i, distances, offsets, oneway)`: indices and offsets of the
neighbors of atom `i`.  The `oneway` flag is accepted but never read. -/
def get_neighbors {natoms noff : ℕ} (i : Fin natoms)
    (distances : Fin natoms → Fin natoms → Fin noff → ℝ)
    (offsets : Fin noff → Fin 3 → ℤ) (oneway : Bool) :
    List (Fin natoms) × List (Fin 3 → ℤ) :=
  ((neighborPairs i distances offsets).map Prod.fst,
   (neighborPairs i distances offsets).map Prod.snd)

/-! ### List and vector helper lemmas -/

lemma mem_intRange {lo hi x : ℤ} : x ∈ intRange lo hi ↔ lo ≤ x ∧ x < hi := by
  unfold intRange
  rw [List.mem_map]
  constructor
  · rintro ⟨t, ht, rfl⟩
    rw [List.mem_range] at ht
    have h1 : (t : ℤ) < ((hi - lo).toNat : ℤ) := by exact_mod_cast ht
    omega
  · rintro ⟨h1, h2⟩
    refine ⟨(x - lo).toNat, ?_, ?_⟩
    · rw [List.mem_range]
      omega
    · omega

lemma nodup_intRange {lo hi : ℤ} : (intRange lo hi).Nodup :=
  List.Nodup.map (fun a b h => by omega) (List.nodup_range _)

lemma vec3_eta {α : Type} (v : Fin 3 → α) : ![v 0, v 1, v 2] = v := by
  funext i
  fin_cases i <;> simp

lemma vec3_apply (a b c : ℤ) :
    (![a, b, c] : Fin 3 → ℤ) 0 = a ∧ (![a, b, c] : Fin 3 → ℤ) 1 = b ∧
      (![a, b, c] : Fin 3 → ℤ) 2 = c := by
  refine ⟨rfl, rfl, rfl⟩

lemma mem_vecTriple {r0 r1 r2 : List ℤ} {o : Fin 3 → ℤ} :
    o ∈ (r0.flatMap fun o1 => r1.flatMap fun o2 => r2.map fun o3 => ![o1, o2, o3]) ↔
      o 0 ∈ r0 ∧ o 1 ∈ r1 ∧ o 2 ∈ r2 := by
  simp only [List.mem_flatMap, List.mem_map]
  constructor
  · rintro ⟨a, ha, b, hb, c, hc, rfl⟩
    exact ⟨ha, hb, hc⟩
  · rintro ⟨h0, h1, h2⟩
    exact ⟨o 0, h0, o 1, h1, o 2, h2, vec3_eta o⟩

lemma nodup_vecTriple {r0 r1 r2 : List ℤ} (h0 : r0.Nodup) (h1 : r1.Nodup)
    (h2 : r2.Nodup) :
    (r0.flatMap fun o1 => r1.flatMap fun o2 => r2.map fun o3 => ![o1, o2, o3]).Nodup := by
  rw [List.nodup_flatMap]
  refine ⟨fun a _ => ?_, ?_⟩
  · rw [List.nodup_flatMap]
    refine ⟨fun b _ => List.Nodup.map (fun c c' hcc => ?_) h2, ?_⟩
    · have h2' := congrFun hcc 2
      simpa using h2'
    · refine h1.pairwise_of_forall_ne fun b _ b' _ hbb => ?_
      intro x hx hx'
      simp only [List.mem_map] at hx hx'
      obtain ⟨c, _, rfl⟩ := hx
      obtain ⟨c', _, h⟩ := hx'
      have hb : b' = b := by simpa using congrFun h 1
      exact hbb hb.symm
  · refine h0.pairwise_of_forall_ne fun a _ a' _ haa => ?_
    intro x hx hx'
    simp only [List.mem_flatMap, List.mem_map] at hx hx'
    obtain ⟨b, _, c, _, rfl⟩ := hx
    obtain ⟨b', _, c', _, h⟩ := hx'
    have ha : a' = a := by simpa using congrFun h 0
    exact haa ha.symm

/-! ### Linear-algebra helper lemmas -/

section Helpers

variable {n : ℕ}
variable (positions : Fin n → Fin 3 → ℝ)
variable (cell : Matrix (Fin 3) (Fin 3) ℝ)
variable (cutoff_distance cutoff_radius skin : ℝ)
variable (strain : Matrix (Fin 3) (Fin 3) ℝ)

lemma vecMul_cell_inv (hdet : (strainedCell cell strain).det ≠ 0)
    (x : Fin 3 → ℝ) :
    Matrix.vecMul (Matrix.vecMul x (strainedCell cell strain))
      (inverseCell cell strain) = x := by
  rw [inverseCell, Matrix.vecMul_vecMul,
    Matrix.mul_nonsing_inv _ (isUnit_iff_ne_zero.mpr hdet), Matrix.vecMul_one]

lemma vecMul_apply_eq_sum (x : Fin 3 → ℝ) (M : Matrix (Fin 3) (Fin 3) ℝ)
    (k : Fin 3) : Matrix.vecMul x M k = ∑ c, x c * M c k := by
  simp [Matrix.vecMul, Matrix.dotProduct]

lemma sq_vecMul_le (x : Fin 3 → ℝ) (M : Matrix (Fin 3) (Fin 3) ℝ) (k : Fin 3) :
    Matrix.vecMul x M k ^ 2 ≤ (∑ c, x c ^ 2) * (∑ c, M c k ^ 2) := by
  rw [vecMul_apply_eq_sum]
  exact Finset.sum_mul_sq_le_sq_mul_sq _ _ _

lemma colNorm_nonneg (k : Fin 3) : 0 ≤ colNorm cell strain k :=
  Real.sqrt_nonneg _

lemma colNorm_sq (k : Fin 3) :
    colNorm cell strain k ^ 2 = ∑ c, inverseCell cell strain c k ^ 2 :=
  Real.sq_sqrt (Finset.sum_nonneg fun c _ => sq_nonneg _)

lemma colNorm_pos (hdet : (strainedCell cell strain).det ≠ 0) (k : Fin 3) :
    0 < colNorm cell strain k := by
  have hinv : (inverseCell cell strain).det ≠ 0 := by
    rw [inverseCell, Matrix.det_nonsing_inv, Ring.inverse_eq_inv]
    exact inv_ne_zero hdet
  have hex : ∃ c, inverseCell cell strain c k ≠ 0 := by
    by_contra hall
    push_neg at hall
    exact hinv (Matrix.det_eq_zero_of_column_eq_zero k hall)
  obtain ⟨c, hc⟩ := hex
  apply Real.sqrt_pos.mpr
  exact Finset.sum_pos' (fun c' _ => sq_nonneg _)
    ⟨c, Finset.mem_univ c, by positivity⟩

lemma pv_decomp (i j : Fin n) (o : Fin 3 → ℤ) :
    pv positions cell strain i j o =
      (strainedPositions positions strain j + cartOffset cell strain o)
        - strainedPositions positions strain i := rfl

lemma vecMul_pv (hdet : (strainedCell cell strain).det ≠ 0) (i j : Fin n)
    (o : Fin 3 → ℤ) :
    Matrix.vecMul (pv positions cell strain i j o) (inverseCell cell strain)
      = fun k => rawFrac positions cell strain j k + (o k : ℝ)
          - rawFrac positions cell strain i k := by
  rw [pv_decomp, Matrix.sub_vecMul, Matrix.add_vecMul]
  have hc : Matrix.vecMul (cartOffset cell strain o) (inverseCell cell strain)
      = fun c => (o c : ℝ) := vecMul_cell_inv cell strain hdet _
  funext k
  simp only [Pi.sub_apply, Pi.add_apply, hc, rawFrac]

lemma wrapOffA_eq (a : Fin n) (k : Fin 3) :
    wrapOffA positions cell strain a k = -⌊rawFrac positions cell strain a k⌋ := by
  unfold wrapOffA fracCoords
  rw [show Int.fract (rawFrac positions cell strain a k)
      - rawFrac positions cell strain a k
      = ((-⌊rawFrac positions cell strain a k⌋ : ℤ) : ℝ) by
    rw [Int.fract]
    push_cast
    ring]
  exact round_intCast _

lemma positions0_decomp (a : Fin n) :
    (fun k => positions0 positions cell strain a k) =
      strainedPositions positions strain a +
        Matrix.vecMul (fun c => (wrapOffA positions cell strain a c : ℝ))
          (strainedCell cell strain) := rfl

lemma vecMul_positions0 (hdet : (strainedCell cell strain).det ≠ 0) (a : Fin n) :
    Matrix.vecMul (fun k => positions0 positions cell strain a k)
      (inverseCell cell strain)
      = fun k => fracCoords positions cell strain a k := by
  rw [positions0_decomp, Matrix.add_vecMul]
  have hw : Matrix.vecMul (Matrix.vecMul
      (fun c => (wrapOffA positions cell strain a c : ℝ))
      (strainedCell cell strain)) (inverseCell cell strain)
      = fun c => (wrapOffA positions cell strain a c : ℝ) :=
    vecMul_cell_inv cell strain hdet _
  funext k
  simp only [Pi.add_apply, hw]
  rw [wrapOffA_eq]
  unfold fracCoords
  rw [Int.fract]
  simp only [rawFrac]
  push_cast
  ring

end Helpers

/-! ### Membership characterizations of the enumerated lists -/

section Helpers2

variable {n : ℕ}
variable (positions : Fin n → Fin 3 → ℝ)
variable (cell : Matrix (Fin 3) (Fin 3) ℝ)
variable (cutoff_distance cutoff_radius skin : ℝ)
variable (strain : Matrix (Fin 3) (Fin 3) ℝ)

lemma mem_offsetsList [NeZero n] {o : Fin 3 → ℤ} :
    o ∈ offsetsList positions cell cutoff_distance strain ↔
      ∀ k, minsZ positions cell cutoff_distance strain k ≤ o k ∧
        o k < maxsZ positions cell cutoff_distance strain k := by
  unfold offsetsList
  rw [mem_vecTriple]
  simp only [mem_intRange]
  constructor
  · rintro ⟨h0, h1, h2⟩ k
    fin_cases k
    · exact h0
    · exact h1
    · exact h2
  · intro h
    exact ⟨h 0, h 1, h 2⟩

lemma nodup_offsetsList [NeZero n] :
    (offsetsList positions cell cutoff_distance strain).Nodup :=
  nodup_vecTriple nodup_intRange nodup_intRange nodup_intRange

lemma mem_candList {o : Fin 3 → ℤ} :
    o ∈ candList cell cutoff_radius strain ↔
      (0 ≤ o 0 ∧ o 0 ≤ nRep cell cutoff_radius strain 0) ∧
      (-nRep cell cutoff_radius strain 1 ≤ o 1 ∧
        o 1 ≤ nRep cell cutoff_radius strain 1) ∧
      (-nRep cell cutoff_radius strain 2 ≤ o 2 ∧
        o 2 ≤ nRep cell cutoff_radius strain 2) := by
  unfold candList
  rw [mem_vecTriple]
  simp only [mem_intRange]
  omega

lemma nodup_candList : (candList cell cutoff_radius strain).Nodup :=
  nodup_vecTriple nodup_intRange nodup_intRange nodup_intRange

lemma mem_processedList {o : Fin 3 → ℤ} :
    o ∈ processedList cell cutoff_radius strain ↔
      o ∈ candList cell cutoff_radius strain ∧ ¬skipOff o := by
  unfold processedList
  rw [List.mem_filter]
  simp

lemma nodup_processedList : (processedList cell cutoff_radius strain).Nodup :=
  (nodup_candList cell cutoff_radius strain).filter _

lemma mem_selectList {a j : Fin n} {o : Fin 3 → ℤ} :
    j ∈ selectList positions cell cutoff_radius skin strain a o ↔
      (s2 positions cell strain a j o < cutoff_radius ^ 2 + skin ∧
        ((o 0 = 0 ∧ o 1 = 0 ∧ o 2 = 0) → a < j)) := by
  unfold selectList
  by_cases h : o 0 = 0 ∧ o 1 = 0 ∧ o 2 = 0
  · simp only [if_pos h, List.mem_filter, List.mem_finRange, decide_eq_true_eq,
      true_and]
    tauto
  · simp only [if_neg h, List.mem_filter, List.mem_finRange, decide_eq_true_eq,
      true_and]
    tauto

lemma nodup_selectList {a : Fin n} {o : Fin 3 → ℤ} :
    (selectList positions cell cutoff_radius skin strain a o).Nodup := by
  unfold selectList
  by_cases h : o 0 = 0 ∧ o 1 = 0 ∧ o 2 = 0
  · simp only [if_pos h]
    exact (((List.nodup_finRange n).filter _).filter _)
  · simp only [if_neg h]
    exact ((List.nodup_finRange n).filter _)

lemma mem_onewayPairs {a j : Fin n} {v : Fin 3 → ℤ} :
    (j, v) ∈ onewayPairs positions cell cutoff_radius skin strain a ↔
      ∃ o ∈ processedList cell cutoff_radius strain,
        j ∈ selectList positions cell cutoff_radius skin strain a o ∧
          v = dispOf positions cell strain o a j := by
  unfold onewayPairs
  rw [List.mem_flatMap]
  constructor
  · rintro ⟨o, ho, hm⟩
    rw [List.mem_map] at hm
    obtain ⟨j', hj', hpair⟩ := hm
    rw [Prod.mk.injEq] at hpair
    obtain ⟨rfl, rfl⟩ := hpair
    exact ⟨o, ho, hj', rfl⟩
  · rintro ⟨o, ho, hj, rfl⟩
    exact ⟨o, ho, List.mem_map.mpr ⟨j, hj, rfl⟩⟩

lemma dispOf_cancel (o : Fin 3 → ℤ) (a j : Fin n) :
    (fun k => dispOf positions cell strain o a j k
      - wrapOffA positions cell strain j k + wrapOffA positions cell strain a k)
      = o := by
  funext k
  unfold dispOf
  ring

lemma mem_onewayPairs' {a j : Fin n} {v : Fin 3 → ℤ} :
    (j, v) ∈ onewayPairs positions cell cutoff_radius skin strain a ↔
      ((fun k => v k - wrapOffA positions cell strain j k
          + wrapOffA positions cell strain a k)
            ∈ processedList cell cutoff_radius strain ∧
        j ∈ selectList positions cell cutoff_radius skin strain a
          (fun k => v k - wrapOffA positions cell strain j k
            + wrapOffA positions cell strain a k)) := by
  rw [mem_onewayPairs]
  constructor
  · rintro ⟨o, ho, hj, rfl⟩
    rw [dispOf_cancel]
    exact ⟨ho, hj⟩
  · rintro ⟨hp, hs⟩
    refine ⟨_, hp, hs, ?_⟩
    funext k
    unfold dispOf
    ring

/-! ### Geometric bounds: Cauchy-Schwarz control of fractional components -/

lemma dense_component_bound (hdet : (strainedCell cell strain).det ≠ 0)
    (hcut : 0 ≤ cutoff_distance) {i j : Fin n} {o : Fin 3 → ℤ}
    (h2 : d2off positions cell strain i j o < cutoff_distance ^ 2) (k : Fin 3) :
    |rawFrac positions cell strain j k + (o k : ℝ)
      - rawFrac positions cell strain i k|
      < numRepeats cell cutoff_distance strain k := by
  have hF : rawFrac positions cell strain j k + (o k : ℝ)
      - rawFrac positions cell strain i k
      = Matrix.vecMul (pv positions cell strain i j o)
          (inverseCell cell strain) k := by
    rw [vecMul_pv positions cell strain hdet i j o]
  have h1 : Matrix.vecMul (pv positions cell strain i j o)
      (inverseCell cell strain) k ^ 2
      ≤ d2off positions cell strain i j o * colNorm cell strain k ^ 2 := by
    rw [colNorm_sq]
    exact sq_vecMul_le _ _ k
  have hcn : 0 < colNorm cell strain k ^ 2 :=
    pow_pos (colNorm_pos cell strain hdet k) 2
  have h3 : d2off positions cell strain i j o * colNorm cell strain k ^ 2
      < cutoff_distance ^ 2 * colNorm cell strain k ^ 2 :=
    mul_lt_mul_of_pos_right h2 hcn
  have h4 : Matrix.vecMul (pv positions cell strain i j o)
      (inverseCell cell strain) k ^ 2
      < numRepeats cell cutoff_distance strain k ^ 2 := by
    rw [numRepeats, mul_pow]
    exact lt_of_le_of_lt h1 h3
  have h5 := abs_lt_of_sq_lt_sq h4
    (mul_nonneg hcut (colNorm_nonneg cell strain k))
  rw [hF]
  exact h5

lemma vecMul_pv0 (hdet : (strainedCell cell strain).det ≠ 0) (a j : Fin n)
    (o : Fin 3 → ℤ) :
    Matrix.vecMul (fun k => positions0 positions cell strain j k
      + cartOffset cell strain o k - positions0 positions cell strain a k)
        (inverseCell cell strain)
      = fun k => fracCoords positions cell strain j k + (o k : ℝ)
          - fracCoords positions cell strain a k := by
  have hdec : (fun k => positions0 positions cell strain j k
      + cartOffset cell strain o k - positions0 positions cell strain a k)
      = ((fun k => positions0 positions cell strain j k)
          + cartOffset cell strain o)
        - (fun k => positions0 positions cell strain a k) := rfl
  rw [hdec, Matrix.sub_vecMul, Matrix.add_vecMul,
    vecMul_positions0 positions cell strain hdet,
    vecMul_positions0 positions cell strain hdet]
  have hc : Matrix.vecMul (cartOffset cell strain o) (inverseCell cell strain)
      = fun c => (o c : ℝ) := vecMul_cell_inv cell strain hdet _
  funext k
  simp only [Pi.sub_apply, Pi.add_apply, hc]

lemma oneway_component_bound (hdet : (strainedCell cell strain).det ≠ 0)
    (hcut : 0 ≤ cutoff_radius) {a j : Fin n} {o : Fin 3 → ℤ}
    (h2 : s2 positions cell strain a j o < cutoff_radius ^ 2) (k : Fin 3) :
    |fracCoords positions cell strain j k + (o k : ℝ)
      - fracCoords positions cell strain a k|
      < cutoff_radius * colNorm cell strain k := by
  have hF : fracCoords positions cell strain j k + (o k : ℝ)
      - fracCoords positions cell strain a k
      = Matrix.vecMul (fun k => positions0 positions cell strain j k
          + cartOffset cell strain o k - positions0 positions cell strain a k)
            (inverseCell cell strain) k := by
    rw [vecMul_pv0 positions cell strain hdet a j o]
  have h1 : Matrix.vecMul (fun k => positions0 positions cell strain j k
      + cartOffset cell strain o k - positions0 positions cell strain a k)
        (inverseCell cell strain) k ^ 2
      ≤ s2 positions cell strain a j o * colNorm cell strain k ^ 2 := by
    rw [colNorm_sq]
    exact sq_vecMul_le _ _ k
  have hcn : 0 < colNorm cell strain k ^ 2 :=
    pow_pos (colNorm_pos cell strain hdet k) 2
  have h3 : s2 positions cell strain a j o * colNorm cell strain k ^ 2
      < cutoff_radius ^ 2 * colNorm cell strain k ^ 2 :=
    mul_lt_mul_of_pos_right h2 hcn
  have h4 : Matrix.vecMul (fun k => positions0 positions cell strain j k
      + cartOffset cell strain o k - positions0 positions cell strain a k)
        (inverseCell cell strain) k ^ 2
      < (cutoff_radius * colNorm cell strain k) ^ 2 := by
    rw [mul_pow]
    exact lt_of_le_of_lt h1 h3
  have h5 := abs_lt_of_sq_lt_sq h4
    (mul_nonneg hcut (colNorm_nonneg cell strain k))
  rw [hF]
  exact h5

end Helpers2

/-! ### Coverage of the enumerated boxes, and deduplication combinatorics -/

section Helpers3

variable {n : ℕ}
variable (positions : Fin n → Fin 3 → ℝ)
variable (cell : Matrix (Fin 3) (Fin 3) ℝ)
variable (cutoff_distance cutoff_radius skin : ℝ)
variable (strain : Matrix (Fin 3) (Fin 3) ℝ)

lemma dense_box [NeZero n] (hdet : (strainedCell cell strain).det ≠ 0)
    (hin : ∀ a k, 0 ≤ rawFrac positions cell strain a k ∧
      rawFrac positions cell strain a k < 1)
    (hcut : 0 ≤ cutoff_distance) {i j : Fin n} {o : Fin 3 → ℤ}
    (h2 : d2off positions cell strain i j o < cutoff_distance ^ 2) :
    o ∈ offsetsList positions cell cutoff_distance strain := by
  rw [mem_offsetsList]
  intro k
  have hb := dense_component_bound positions cell cutoff_distance strain hdet
    hcut h2 k
  rw [abs_lt] at hb
  obtain ⟨hb1, hb2⟩ := hb
  have hfx : ∀ a : Fin n, fracCoords positions cell strain a k
      = rawFrac positions cell strain a k := fun a =>
    Int.fract_eq_self.mpr ⟨(hin a k).1, (hin a k).2⟩
  have hy0 := (hin j k).1
  have hy1 := (hin j k).2
  constructor
  · have hmins : minsZ positions cell cutoff_distance strain k
        ≤ ⌊fracCoords positions cell strain i k
            - numRepeats cell cutoff_distance strain k⌋ :=
      Finset.inf'_le _ (Finset.mem_univ i)
    have h6 : (minsZ positions cell cutoff_distance strain k : ℝ)
        ≤ rawFrac positions cell strain i k
          - numRepeats cell cutoff_distance strain k := by
      refine le_trans (Int.cast_le.mpr hmins) ?_
      rw [hfx]
      exact Int.floor_le _
    have h8 : (minsZ positions cell cutoff_distance strain k : ℝ) - 1
        < (o k : ℝ) := by linarith
    have h9 : minsZ positions cell cutoff_distance strain k - 1 < o k := by
      exact_mod_cast h8
    omega
  · have hmaxs : ⌈fracCoords positions cell strain i k
        + numRepeats cell cutoff_distance strain k⌉
        ≤ maxsZ positions cell cutoff_distance strain k := by
      unfold maxsZ
      exact Finset.le_sup' (fun a => ⌈fracCoords positions cell strain a k
        + numRepeats cell cutoff_distance strain k⌉) (Finset.mem_univ i)
    have h6 : rawFrac positions cell strain i k
        + numRepeats cell cutoff_distance strain k
        ≤ (maxsZ positions cell cutoff_distance strain k : ℝ) := by
      refine le_trans ?_ (Int.cast_le.mpr hmaxs)
      rw [hfx]
      exact Int.le_ceil _
    have h8 : (o k : ℝ) < (maxsZ positions cell cutoff_distance strain k : ℝ) := by
      linarith
    exact_mod_cast h8

lemma nRep_pos (hcut : 0 ≤ cutoff_radius) (k : Fin 3) :
    1 ≤ nRep cell cutoff_radius strain k := by
  unfold nRep
  have hx : (0 : ℝ) ≤ 2 * cutoff_radius / hax cell strain k := by
    apply div_nonneg (by linarith)
    unfold hax
    have := colNorm_nonneg cell strain k
    positivity
  have := Int.floor_nonneg.mpr hx
  omega

lemma oneway_box (hdet : (strainedCell cell strain).det ≠ 0)
    (hcutpos : 0 < cutoff_radius) {a j : Fin n} {o : Fin 3 → ℤ}
    (h2 : s2 positions cell strain a j o < cutoff_radius ^ 2) (k : Fin 3) :
    -nRep cell cutoff_radius strain k ≤ o k ∧
      o k ≤ nRep cell cutoff_radius strain k := by
  have hb := oneway_component_bound positions cell cutoff_radius strain hdet
    (le_of_lt hcutpos) h2 k
  rw [abs_lt] at hb
  obtain ⟨hb1, hb2⟩ := hb
  have hcpos : 0 < cutoff_radius * colNorm cell strain k :=
    mul_pos hcutpos (colNorm_pos cell strain hdet k)
  have hfa0 : (0:ℝ) ≤ fracCoords positions cell strain a k := Int.fract_nonneg _
  have hfa1 : fracCoords positions cell strain a k < 1 := Int.fract_lt_one _
  have hfj0 : (0:ℝ) ≤ fracCoords positions cell strain j k := Int.fract_nonneg _
  have hfj1 : fracCoords positions cell strain j k < 1 := Int.fract_lt_one _
  have h5 : |(o k : ℝ)| < cutoff_radius * colNorm cell strain k + 1 := by
    rw [abs_lt]
    constructor <;> linarith
  have hN : nRep cell cutoff_radius strain k
      = ⌊2 * (cutoff_radius * colNorm cell strain k)⌋ + 1 := by
    unfold nRep
    rw [show 2 * cutoff_radius / hax cell strain k
        = 2 * (cutoff_radius * colNorm cell strain k) by
      unfold hax
      rw [one_div, div_eq_mul_inv, inv_inv]
      ring]
  have hm1 : 1 ≤ ⌈cutoff_radius * colNorm cell strain k⌉ := by
    have := Int.ceil_pos.mpr hcpos
    omega
  have h6 : |o k| ≤ ⌈cutoff_radius * colNorm cell strain k⌉ := by
    have hcast : (|o k| : ℝ) = |(o k : ℝ)| := by push_cast; rfl
    have h7 : (|o k| : ℝ)
        < (⌈cutoff_radius * colNorm cell strain k⌉ : ℝ) + 1 := by
      rw [hcast]
      have := Int.le_ceil (cutoff_radius * colNorm cell strain k)
      linarith
    have h8 : |o k| < ⌈cutoff_radius * colNorm cell strain k⌉ + 1 := by
      exact_mod_cast h7
    omega
  have h7 : ⌈cutoff_radius * colNorm cell strain k⌉
      ≤ ⌊2 * (cutoff_radius * colNorm cell strain k)⌋ + 1 := by
    have hlt : (⌈cutoff_radius * colNorm cell strain k⌉ : ℝ) - 1
        < cutoff_radius * colNorm cell strain k := by
      have := Int.ceil_lt_add_one (cutoff_radius * colNorm cell strain k)
      linarith
    have h2c : ((2 * ⌈cutoff_radius * colNorm cell strain k⌉ - 2 : ℤ) : ℝ)
        ≤ 2 * (cutoff_radius * colNorm cell strain k) := by
      push_cast
      linarith
    have h8 := Int.le_floor.mpr h2c
    omega
  rw [hN]
  have := abs_le.mp h6
  omega

lemma zeroOff_processed (hcut : 0 ≤ cutoff_radius) :
    (![0, 0, 0] : Fin 3 → ℤ) ∈ processedList cell cutoff_radius strain := by
  rw [mem_processedList, mem_candList]
  have h0 := nRep_pos cell cutoff_radius strain hcut 0
  have h1 := nRep_pos cell cutoff_radius strain hcut 1
  have h2 := nRep_pos cell cutoff_radius strain hcut 2
  refine ⟨⟨?_, ?_, ?_⟩, ?_⟩
  · simp
    omega
  · simp
    omega
  · simp
    omega
  · unfold skipOff
    simp

lemma processed_xor {o : Fin 3 → ℤ}
    (hb0 : -nRep cell cutoff_radius strain 0 ≤ o 0 ∧
      o 0 ≤ nRep cell cutoff_radius strain 0)
    (hb1 : -nRep cell cutoff_radius strain 1 ≤ o 1 ∧
      o 1 ≤ nRep cell cutoff_radius strain 1)
    (hb2 : -nRep cell cutoff_radius strain 2 ≤ o 2 ∧
      o 2 ≤ nRep cell cutoff_radius strain 2)
    (hne : ¬(o 0 = 0 ∧ o 1 = 0 ∧ o 2 = 0)) :
    Xor' (o ∈ processedList cell cutoff_radius strain)
      ((fun k => -o k) ∈ processedList cell cutoff_radius strain) := by
  unfold Xor'
  simp only [mem_processedList, mem_candList, skipOff]
  omega

/-! ### Relating the one-way squared distances to the dense ones -/

lemma cartOffset_dispOf (o : Fin 3 → ℤ) (a j : Fin n) (k : Fin 3) :
    cartOffset cell strain (dispOf positions cell strain o a j) k
      = cartOffset cell strain o k
        + Matrix.vecMul (fun c => (wrapOffA positions cell strain j c : ℝ))
            (strainedCell cell strain) k
        - Matrix.vecMul (fun c => (wrapOffA positions cell strain a c : ℝ))
            (strainedCell cell strain) k := by
  unfold cartOffset dispOf
  simp only [vecMul_apply_eq_sum]
  rw [← Finset.sum_add_distrib, ← Finset.sum_sub_distrib]
  apply Finset.sum_congr rfl
  intro c _
  push_cast
  ring

lemma s2_eq_d2off (a j : Fin n) (o : Fin 3 → ℤ) :
    s2 positions cell strain a j o
      = d2off positions cell strain a j (dispOf positions cell strain o a j) := by
  unfold s2 d2off
  apply Finset.sum_congr rfl
  intro k _
  unfold pv positions0
  rw [cartOffset_dispOf]
  ring

lemma cartOffset_neg (o : Fin 3 → ℤ) (k : Fin 3) :
    cartOffset cell strain (fun k => -o k) k = -cartOffset cell strain o k := by
  unfold cartOffset
  simp only [vecMul_apply_eq_sum]
  rw [← Finset.sum_neg_distrib]
  apply Finset.sum_congr rfl
  intro c _
  push_cast
  ring

lemma s2_flip (a j : Fin n) (o : Fin 3 → ℤ) :
    s2 positions cell strain a j o
      = s2 positions cell strain j a (fun k => -o k) := by
  unfold s2
  apply Finset.sum_congr rfl
  intro k _
  rw [cartOffset_neg]
  ring

lemma dispOf_flip (o : Fin 3 → ℤ) (a j : Fin n) :
    dispOf positions cell strain (fun k => -o k) j a
      = fun k => -dispOf positions cell strain o a j k := by
  funext k
  unfold dispOf
  ring

/-! ### The guarded square root and the cutoff mask -/

lemma d2off_nonneg (i j : Fin n) (o : Fin 3 → ℤ) :
    0 ≤ d2off positions cell strain i j o :=
  Finset.sum_nonneg fun k _ => sq_nonneg _

lemma dOff_char (i j : Fin n) (o : Fin 3 → ℤ) :
    dOff positions cell strain i j o
      = if d2off positions cell strain i j o = 0 then 0
        else Real.sqrt (d2off positions cell strain i j o) := by
  unfold dOff
  by_cases h : d2off positions cell strain i j o = 0 <;> simp [h]

lemma dOff_nonneg (i j : Fin n) (o : Fin 3 → ℤ) :
    0 ≤ dOff positions cell strain i j o := by
  rw [dOff_char]
  split
  · exact le_refl 0
  · exact Real.sqrt_nonneg _

lemma entry_of_lt {i j : Fin n} {o : Fin 3 → ℤ}
    (h2pos : 0 < d2off positions cell strain i j o)
    (hlt : d2off positions cell strain i j o < cutoff_distance ^ 2)
    (hc : 0 ≤ cutoff_distance) (hs : 0 ≤ skin) :
    entryOff positions cell cutoff_distance skin strain i j o
        = Real.sqrt (d2off positions cell strain i j o) ∧
      0 < entryOff positions cell cutoff_distance skin strain i j o := by
  have hne : d2off positions cell strain i j o ≠ 0 := ne_of_gt h2pos
  have hd : dOff positions cell strain i j o
      = Real.sqrt (d2off positions cell strain i j o) := by
    rw [dOff_char, if_neg hne]
  have hsq : Real.sqrt (d2off positions cell strain i j o) < cutoff_distance := by
    have h9 := Real.sqrt_lt_sqrt (le_of_lt h2pos) hlt
    rwa [Real.sqrt_sq hc] at h9
  have hkeep : dOff positions cell strain i j o < cutoff_distance + skin := by
    rw [hd]
    linarith
  unfold entryOff
  rw [if_pos hkeep, hd]
  exact ⟨rfl, Real.sqrt_pos.mpr h2pos⟩

end Helpers3

/-! ### Deduplication of the one-way output -/

section Helpers4

variable {n : ℕ}
variable (positions : Fin n → Fin 3 → ℝ)
variable (cell : Matrix (Fin 3) (Fin 3) ℝ)
variable (cutoff_distance cutoff_radius skin : ℝ)
variable (strain : Matrix (Fin 3) (Fin 3) ℝ)

lemma nodup_onewayPairs (a : Fin n) :
    (onewayPairs positions cell cutoff_radius skin strain a).Nodup := by
  unfold onewayPairs
  rw [List.nodup_flatMap]
  refine ⟨fun o _ => ?_, ?_⟩
  · refine List.Nodup.map (fun j j' h => ?_)
      (nodup_selectList positions cell cutoff_radius skin strain)
    exact congrArg Prod.fst h
  · refine (nodup_processedList cell cutoff_radius
      strain).pairwise_of_forall_ne fun o _ o' _ hne => ?_
    intro x hx hx'
    simp only [List.mem_map] at hx hx'
    obtain ⟨j, _, rfl⟩ := hx
    obtain ⟨j', _, h⟩ := hx'
    rw [Prod.mk.injEq] at h
    obtain ⟨rfl, hd⟩ := h
    apply hne
    funext k
    have hk := congrFun hd k
    unfold dispOf at hk
    omega

lemma oneway_no_mirror (a b : Fin n) (v : Fin 3 → ℤ)
    (h1 : (b, v) ∈ onewayPairs positions cell cutoff_radius skin strain a) :
    (a, fun k => -v k) ∉ onewayPairs positions cell cutoff_radius skin strain b := by
  intro h2
  rw [mem_onewayPairs'] at h1 h2
  obtain ⟨hp1, hs1⟩ := h1
  obtain ⟨hp2, hs2⟩ := h2
  set o1 : Fin 3 → ℤ := fun k => v k - wrapOffA positions cell strain b k
    + wrapOffA positions cell strain a k with ho1
  have ho2 : (fun k => (fun k' => -v k') k - wrapOffA positions cell strain a k
      + wrapOffA positions cell strain b k) = fun k => -o1 k := by
    funext k
    rw [ho1]
    ring
  rw [ho2] at hp2 hs2
  rw [mem_processedList] at hp1 hp2
  obtain ⟨hc1, hk1⟩ := hp1
  obtain ⟨hc2, hk2⟩ := hp2
  rw [mem_candList] at hc1 hc2
  have hc2' : (0:ℤ) ≤ -o1 0 := hc2.1.1
  have hk1' : ¬(o1 0 = 0 ∧ (o1 1 < 0 ∨ (o1 1 = 0 ∧ o1 2 < 0))) := hk1
  have hk2' : ¬(-o1 0 = 0 ∧ (-o1 1 < 0 ∨ (-o1 1 = 0 ∧ -o1 2 < 0))) := hk2
  by_cases hz : o1 0 = 0 ∧ o1 1 = 0 ∧ o1 2 = 0
  · rw [mem_selectList] at hs1 hs2
    have hab : a < b := hs1.2 (by exact ⟨hz.1, hz.2.1, hz.2.2⟩)
    have hba : b < a := hs2.2 (by
      refine ⟨?_, ?_, ?_⟩ <;> omega)
    exact absurd hab (not_lt.mpr (le_of_lt hba))
  · have hc1' : (0:ℤ) ≤ o1 0 := hc1.1.1
    omega

lemma oneway_zero_cand (a j : Fin n) (v : Fin 3 → ℤ)
    (h1 : (j, v) ∈ onewayPairs positions cell cutoff_radius skin strain a)
    (hv : v = fun k => wrapOffA positions cell strain j k
      - wrapOffA positions cell strain a k) : a < j := by
  rw [mem_onewayPairs'] at h1
  obtain ⟨hp, hs⟩ := h1
  rw [mem_selectList] at hs
  apply hs.2
  have hderiv : ∀ k, v k = wrapOffA positions cell strain j k
      - wrapOffA positions cell strain a k := fun k => by rw [hv]
  have h0 : v 0 - wrapOffA positions cell strain j 0
      + wrapOffA positions cell strain a 0 = 0 := by
    rw [hderiv 0]
    ring
  have h1' : v 1 - wrapOffA positions cell strain j 1
      + wrapOffA positions cell strain a 1 = 0 := by
    rw [hderiv 1]
    ring
  have h2' : v 2 - wrapOffA positions cell strain j 2
      + wrapOffA positions cell strain a 2 = 0 := by
    rw [hderiv 2]
    ring
  exact ⟨h0, h1', h2'⟩

lemma selectList_empty (hneg : cutoff_radius ^ 2 + skin ≤ 0) (a : Fin n)
    (o : Fin 3 → ℤ) :
    selectList positions cell cutoff_radius skin strain a o = [] := by
  have hbase : ((List.finRange n).filter fun j =>
      decide (s2 positions cell strain a j o < cutoff_radius ^ 2 + skin)) = [] := by
    rw [List.filter_eq_nil_iff]
    intro j _
    simp only [decide_eq_true_eq]
    push_neg
    refine le_trans hneg ?_
    exact Finset.sum_nonneg fun k _ => sq_nonneg _
  unfold selectList
  simp only [hbase]
  split
  · simp
  · rfl

end Helpers4

/-! ### The dense query `get_neighbors` -/

lemma mem_neighborPairs {natoms noff : ℕ} {i j : Fin natoms} {v : Fin 3 → ℤ}
    {distances : Fin natoms → Fin natoms → Fin noff → ℝ}
    {offsets : Fin noff → Fin 3 → ℤ} :
    (j, v) ∈ neighborPairs i distances offsets ↔
      ∃ k, 0 < distances i j k ∧ v = offsets k := by
  unfold neighborPairs
  rw [List.mem_flatMap]
  constructor
  · rintro ⟨j', _, hm⟩
    rw [List.mem_filterMap] at hm
    obtain ⟨k, _, hk⟩ := hm
    by_cases h : 0 < distances i j' k
    · rw [if_pos h] at hk
      rw [Option.some.injEq, Prod.mk.injEq] at hk
      obtain ⟨rfl, rfl⟩ := hk
      exact ⟨k, h, rfl⟩
    · rw [if_neg h] at hk
      exact absurd hk (by simp)
  · rintro ⟨k, hk, rfl⟩
    refine ⟨j, List.mem_finRange j, ?_⟩
    rw [List.mem_filterMap]
    exact ⟨k, List.mem_finRange k, by rw [if_pos hk]⟩

/-! ### Exactly-once reporting of in-range pairs by the one-way builder -/

section Helpers5

variable {n : ℕ}
variable (positions : Fin n → Fin 3 → ℝ)
variable (cell : Matrix (Fin 3) (Fin 3) ℝ)
variable (cutoff_radius skin : ℝ)
variable (strain : Matrix (Fin 3) (Fin 3) ℝ)

lemma d2off_zero_vec (i : Fin n) (o : Fin 3 → ℤ) (h0 : o 0 = 0) (h1 : o 1 = 0)
    (h2 : o 2 = 0) : d2off positions cell strain i i o = 0 := by
  have hcart : ∀ k, cartOffset cell strain o k = 0 := by
    intro k
    unfold cartOffset
    rw [vecMul_apply_eq_sum, Fin.sum_univ_three, h0, h1, h2]
    simp
  unfold d2off pv
  apply Finset.sum_eq_zero
  intro k _
  rw [hcart k]
  ring

lemma oneway_exactly_once (hdet : (strainedCell cell strain).det ≠ 0)
    (hc : 0 ≤ cutoff_radius) (hs : 0 ≤ skin) {i j : Fin n} {o : Fin 3 → ℤ}
    (hpos : 0 < d2off positions cell strain i j o)
    (hlt : d2off positions cell strain i j o < cutoff_radius ^ 2) :
    Xor' ((j, o) ∈ onewayPairs positions cell cutoff_radius skin strain i)
      ((i, fun k => -o k) ∈
        onewayPairs positions cell cutoff_radius skin strain j) := by
  have hcpos : 0 < cutoff_radius := by
    rcases hc.lt_or_eq with h | h
    · exact h
    · exfalso
      rw [← h] at hlt
      nlinarith [d2off_nonneg positions cell strain i j o]
  set o1 : Fin 3 → ℤ := fun k => o k - wrapOffA positions cell strain j k
    + wrapOffA positions cell strain i k with ho1
  have hd : dispOf positions cell strain o1 i j = o := by
    funext k
    rw [ho1]
    unfold dispOf
    ring
  have hs2 : s2 positions cell strain i j o1
      = d2off positions cell strain i j o := by
    rw [s2_eq_d2off, hd]
  have hbox : ∀ k, -nRep cell cutoff_radius strain k ≤ o1 k ∧
      o1 k ≤ nRep cell cutoff_radius strain k := by
    intro k
    exact oneway_box positions cell cutoff_radius strain hdet hcpos
      (by rw [hs2]; exact hlt) k
  have hL : (j, o) ∈ onewayPairs positions cell cutoff_radius skin strain i ↔
      (o1 ∈ processedList cell cutoff_radius strain ∧
        j ∈ selectList positions cell cutoff_radius skin strain i o1) := by
    rw [mem_onewayPairs', ← ho1]
  have hneg : (fun k => (fun k' => -o k') k
      - wrapOffA positions cell strain i k
      + wrapOffA positions cell strain j k) = fun k => -o1 k := by
    funext k
    simp only [ho1]
    ring
  have hR : (i, fun k => -o k) ∈
      onewayPairs positions cell cutoff_radius skin strain j ↔
      ((fun k => -o1 k) ∈ processedList cell cutoff_radius strain ∧
        i ∈ selectList positions cell cutoff_radius skin strain j
          (fun k => -o1 k)) := by
    rw [mem_onewayPairs', hneg]
  have hs2' : s2 positions cell strain j i (fun k => -o1 k)
      = d2off positions cell strain i j o := by
    rw [← s2_flip, hs2]
  by_cases hz : o1 0 = 0 ∧ o1 1 = 0 ∧ o1 2 = 0
  · -- the candidate offset is the zero offset: order by index
    have hij : i ≠ j := by
      intro hij
      subst hij
      have ho1k : ∀ k, o1 k = o k := by
        intro k
        have hk := congrFun hd k
        unfold dispOf at hk
        omega
      have hx0 : o 0 = 0 := by
        have := ho1k 0
        omega
      have hx1 : o 1 = 0 := by
        have := ho1k 1
        omega
      have hx2 : o 2 = 0 := by
        have := ho1k 2
        omega
      rw [d2off_zero_vec positions cell strain i o hx0 hx1 hx2] at hpos
      exact lt_irrefl 0 hpos
    have hproc : o1 ∈ processedList cell cutoff_radius strain := by
      rw [mem_processedList, mem_candList]
      have h0 := nRep_pos cell cutoff_radius strain hc 0
      have h1 := nRep_pos cell cutoff_radius strain hc 1
      have h2 := nRep_pos cell cutoff_radius strain hc 2
      unfold skipOff
      omega
    have hproc' : (fun k => -o1 k) ∈ processedList cell cutoff_radius strain := by
      rw [mem_processedList, mem_candList]
      have h0 := nRep_pos cell cutoff_radius strain hc 0
      have h1 := nRep_pos cell cutoff_radius strain hc 1
      have h2 := nRep_pos cell cutoff_radius strain hc 2
      unfold skipOff
      have e0 : (fun k => -o1 k) 0 = -o1 0 := rfl
      have e1 : (fun k => -o1 k) 1 = -o1 1 := rfl
      have e2 : (fun k => -o1 k) 2 = -o1 2 := rfl
      rw [e0, e1, e2]
      omega
    rcases lt_or_gt_of_ne hij with hlt' | hgt'
    · refine Or.inl ⟨hL.mpr ⟨hproc, ?_⟩, ?_⟩
      · rw [mem_selectList]
        exact ⟨by rw [hs2]; linarith, fun _ => hlt'⟩
      · intro hmem
        have hsel := (hR.mp hmem).2
        rw [mem_selectList] at hsel
        have : j < i := hsel.2 (by
          refine ⟨?_, ?_, ?_⟩ <;> omega)
        omega
    · refine Or.inr ⟨hR.mpr ⟨hproc', ?_⟩, ?_⟩
      · rw [mem_selectList]
        refine ⟨by rw [hs2']; linarith, fun _ => hgt'⟩
      · intro hmem
        have hsel := (hL.mp hmem).2
        rw [mem_selectList] at hsel
        have : i < j := hsel.2 (by exact ⟨hz.1, hz.2.1, hz.2.2⟩)
        omega
  · -- a genuinely nonzero candidate: the half-space rule picks one side
    have hxor := processed_xor cell cutoff_radius strain (hbox 0) (hbox 1)
      (hbox 2) hz
    unfold Xor' at hxor
    rcases hxor with ⟨hpo, hnpo⟩ | ⟨hpo, hnpo⟩
    · refine Or.inl ⟨hL.mpr ⟨hpo, ?_⟩, ?_⟩
      · rw [mem_selectList]
        exact ⟨by rw [hs2]; linarith, fun hzz => absurd hzz hz⟩
      · intro hmem
        exact hnpo (hR.mp hmem).1
    · refine Or.inr ⟨hR.mpr ⟨hpo, ?_⟩, ?_⟩
      · rw [mem_selectList]
        refine ⟨by rw [hs2']; linarith, ?_⟩
        intro hzz
        exfalso
        apply hz
        have hzz' : -o1 0 = 0 ∧ -o1 1 = 0 ∧ -o1 2 = 0 := hzz
        omega
      · intro hmem
        exact hnpo (hL.mp hmem).1

end Helpers5

/-! ### Evaluation lemmas for the identity cell with zero strain -/

section IdEval

lemma strainedCell_one : strainedCell (1 : Matrix (Fin 3) (Fin 3) ℝ) 0 = 1 := by
  unfold strainedCell strainTensor
  simp

lemma strainedPositions_id {n : ℕ} (p : Fin n → Fin 3 → ℝ) (a : Fin n) :
    strainedPositions p (0 : Matrix (Fin 3) (Fin 3) ℝ) a = p a := by
  unfold strainedPositions strainTensor
  simp [Matrix.one_mulVec]

lemma inverseCell_one : inverseCell (1 : Matrix (Fin 3) (Fin 3) ℝ) 0 = 1 := by
  unfold inverseCell
  rw [strainedCell_one]
  apply Matrix.inv_eq_right_inv
  simp

lemma rawFrac_one {n : ℕ} (p : Fin n → Fin 3 → ℝ) (a : Fin n) :
    rawFrac p (1 : Matrix (Fin 3) (Fin 3) ℝ) 0 a = p a := by
  unfold rawFrac
  rw [inverseCell_one, Matrix.vecMul_one, strainedPositions_id]

lemma fracCoords_one {n : ℕ} (p : Fin n → Fin 3 → ℝ) (a : Fin n) (k : Fin 3) :
    fracCoords p (1 : Matrix (Fin 3) (Fin 3) ℝ) 0 a k = Int.fract (p a k) := by
  unfold fracCoords
  rw [rawFrac_one]

lemma colNorm_one (k : Fin 3) :
    colNorm (1 : Matrix (Fin 3) (Fin 3) ℝ) 0 k = 1 := by
  unfold colNorm
  rw [inverseCell_one]
  have hsum : ∑ c, ((1 : Matrix (Fin 3) (Fin 3) ℝ) c k) ^ 2 = 1 := by
    fin_cases k <;>
      (rw [Fin.sum_univ_three] <;> norm_num [Matrix.one_apply, Fin.ext_iff])
  rw [hsum, Real.sqrt_one]

lemma numRepeats_one (c : ℝ) (k : Fin 3) : numRepeats 1 c 0 k = c := by
  unfold numRepeats
  rw [colNorm_one]
  ring

lemma nRep_one (c : ℝ) (k : Fin 3) : nRep 1 c 0 k = ⌊2 * c⌋ + 1 := by
  unfold nRep hax
  rw [colNorm_one]
  norm_num

lemma cartOffset_one (o : Fin 3 → ℤ) (k : Fin 3) :
    cartOffset (1 : Matrix (Fin 3) (Fin 3) ℝ) 0 o k = (o k : ℝ) := by
  unfold cartOffset
  rw [strainedCell_one, Matrix.vecMul_one]

lemma d2off_one {n : ℕ} (p : Fin n → Fin 3 → ℝ) (i j : Fin n) (o : Fin 3 → ℤ) :
    d2off p 1 0 i j o = ∑ k, (p j k + (o k : ℝ) - p i k) ^ 2 := by
  unfold d2off pv
  apply Finset.sum_congr rfl
  intro k _
  rw [strainedPositions_id, strainedPositions_id, cartOffset_one]

lemma wrapOffA_one {n : ℕ} (p : Fin n → Fin 3 → ℝ) (a : Fin n) (k : Fin 3) :
    wrapOffA p (1 : Matrix (Fin 3) (Fin 3) ℝ) 0 a k = -⌊p a k⌋ := by
  rw [wrapOffA_eq, rawFrac_one]

lemma wrapOffA_one_incell {n : ℕ} (p : Fin n → Fin 3 → ℝ)
    (hin : ∀ b k, 0 ≤ p b k ∧ p b k < 1) (a : Fin n) (k : Fin 3) :
    wrapOffA p (1 : Matrix (Fin 3) (Fin 3) ℝ) 0 a k = 0 := by
  rw [wrapOffA_one]
  have h1 := (hin a k).1
  have h2 := (hin a k).2
  have : ⌊p a k⌋ = 0 := Int.floor_eq_zero_iff.mpr ⟨h1, h2⟩
  omega

lemma positions0_one_incell {n : ℕ} (p : Fin n → Fin 3 → ℝ)
    (hin : ∀ b k, 0 ≤ p b k ∧ p b k < 1) (a : Fin n) (k : Fin 3) :
    positions0 p (1 : Matrix (Fin 3) (Fin 3) ℝ) 0 a k = p a k := by
  unfold positions0
  rw [strainedPositions_id]
  have hz : (fun c => (wrapOffA p (1 : Matrix (Fin 3) (Fin 3) ℝ) 0 a c : ℝ))
      = fun c => (0 : ℝ) := by
    funext c
    rw [wrapOffA_one_incell p hin]
    norm_num
  rw [hz, strainedCell_one, Matrix.vecMul_one]
  norm_num

lemma s2_one_incell {n : ℕ} (p : Fin n → Fin 3 → ℝ)
    (hin : ∀ b k, 0 ≤ p b k ∧ p b k < 1) (a j : Fin n) (o : Fin 3 → ℤ) :
    s2 p (1 : Matrix (Fin 3) (Fin 3) ℝ) 0 a j o
      = ∑ k, (p j k + (o k : ℝ) - p a k) ^ 2 := by
  unfold s2
  apply Finset.sum_congr rfl
  intro k _
  rw [positions0_one_incell p hin, positions0_one_incell p hin, cartOffset_one]

lemma det_strainedCell_one : (strainedCell (1 : Matrix (Fin 3) (Fin 3) ℝ) 0).det ≠ 0 := by
  rw [strainedCell_one, Matrix.det_one]
  norm_num

/-! ### Concrete inputs used by witnesses and counterexamples -/

/-- A single atom at the origin of the unit cube. -/
def P1 : Fin 1 → Fin 3 → ℝ := ![![0, 0, 0]]

/-- Two atoms at x = 0 and x = 0.6 in the unit cube. -/
def P2 : Fin 2 → Fin 3 → ℝ := ![![0, 0, 0], ![0.6, 0, 0]]

/-- Two atoms at x = 0 and x = 0.25 in the unit cube. -/
def P2w : Fin 2 → Fin 3 → ℝ := ![![0, 0, 0], ![0.25, 0, 0]]

lemma P1_in01 : ∀ (a : Fin 1) (k : Fin 3), 0 ≤ P1 a k ∧ P1 a k < 1 := by
  intro a k
  fin_cases a <;> fin_cases k <;> norm_num [P1]

lemma P2_in01 : ∀ (a : Fin 2) (k : Fin 3), 0 ≤ P2 a k ∧ P2 a k < 1 := by
  intro a k
  fin_cases a <;> fin_cases k <;> norm_num [P2]

lemma P2w_in01 : ∀ (a : Fin 2) (k : Fin 3), 0 ≤ P2w a k ∧ P2w a k < 1 := by
  intro a k
  fin_cases a <;> fin_cases k <;> norm_num [P2w]

lemma P1_rawFrac_in01 : ∀ (a : Fin 1) (k : Fin 3),
    0 ≤ rawFrac P1 (1 : Matrix (Fin 3) (Fin 3) ℝ) 0 a k ∧
      rawFrac P1 (1 : Matrix (Fin 3) (Fin 3) ℝ) 0 a k < 1 := by
  intro a k
  rw [rawFrac_one]
  exact P1_in01 a k

lemma P2_rawFrac_in01 : ∀ (a : Fin 2) (k : Fin 3),
    0 ≤ rawFrac P2 (1 : Matrix (Fin 3) (Fin 3) ℝ) 0 a k ∧
      rawFrac P2 (1 : Matrix (Fin 3) (Fin 3) ℝ) 0 a k < 1 := by
  intro a k
  rw [rawFrac_one]
  exact P2_in01 a k

lemma P2w_rawFrac_in01 : ∀ (a : Fin 2) (k : Fin 3),
    0 ≤ rawFrac P2w (1 : Matrix (Fin 3) (Fin 3) ℝ) 0 a k ∧
      rawFrac P2w (1 : Matrix (Fin 3) (Fin 3) ℝ) 0 a k < 1 := by
  intro a k
  rw [rawFrac_one]
  exact P2w_in01 a k

end IdEval

/-! ### Evaluation of the enumeration bounds on the concrete single-atom input -/

section P1Eval

lemma intRange_nil {lo hi : ℤ} (h : hi ≤ lo) : intRange lo hi = [] := by
  unfold intRange
  rw [show (hi - lo).toNat = 0 by omega]
  rfl

lemma P1_val (a : Fin 1) (k : Fin 3) : P1 a k = 0 := by
  fin_cases a <;> fin_cases k <;> norm_num [P1]

lemma minsZ_P1 (c : ℝ) (k : Fin 3) :
    minsZ P1 (1 : Matrix (Fin 3) (Fin 3) ℝ) c 0 k = ⌊-c⌋ := by
  have hval : ∀ a : Fin 1, ⌊fracCoords P1 (1 : Matrix (Fin 3) (Fin 3) ℝ) 0 a k
      - numRepeats 1 c 0 k⌋ = ⌊-c⌋ := by
    intro a
    rw [fracCoords_one, numRepeats_one, P1_val, Int.fract_zero]
    norm_num
  unfold minsZ
  apply le_antisymm
  · exact le_trans (Finset.inf'_le _ (Finset.mem_univ 0)) (le_of_eq (hval 0))
  · apply Finset.le_inf'
    intro b _
    rw [hval b]

lemma maxsZ_P1 (c : ℝ) (k : Fin 3) :
    maxsZ P1 (1 : Matrix (Fin 3) (Fin 3) ℝ) c 0 k = ⌈c⌉ := by
  have hval : ∀ a : Fin 1, ⌈fracCoords P1 (1 : Matrix (Fin 3) (Fin 3) ℝ) 0 a k
      + numRepeats 1 c 0 k⌉ = ⌈c⌉ := by
    intro a
    rw [fracCoords_one, numRepeats_one, P1_val, Int.fract_zero]
    norm_num
  unfold maxsZ
  apply le_antisymm
  · apply Finset.sup'_le
    intro b _
    rw [hval b]
  · exact le_trans (le_of_eq (hval 0).symm)
      (Finset.le_sup' (fun a : Fin 1 => ⌈fracCoords P1
        (1 : Matrix (Fin 3) (Fin 3) ℝ) 0 a k + numRepeats 1 c 0 k⌉)
        (Finset.mem_univ 0))

end P1Eval

/-! ## Claim theorems -/

/-- C3: in `get_distances`, wherever the squared separation is exactly zero the
guarded square root produces exactly `0` (a well-defined real value, so no
NaN/infinity can arise from the `sqrt`-at-zero singularity), the masked tensor
entry is `0` as well, and every other entry of the unmasked distance array is
the true square root of the squared separation.  Formalized over `ℝ`, where the
substitute-1-then-re-zero construction of the source is reproduced verbatim in
`dOff`. -/
theorem C3_zero_guard {n : ℕ} (positions : Fin n → Fin 3 → ℝ)
    (cell : Matrix (Fin 3) (Fin 3) ℝ) (cutoff_distance skin : ℝ)
    (strain : Matrix (Fin 3) (Fin 3) ℝ) (i j : Fin n) (o : Fin 3 → ℤ) :
    (dOff positions cell strain i j o
      = if d2off positions cell strain i j o = 0 then 0
        else Real.sqrt (d2off positions cell strain i j o)) ∧
    0 ≤ dOff positions cell strain i j o ∧
    (d2off positions cell strain i j o = 0 →
      dOff positions cell strain i j o = 0 ∧
      entryOff positions cell cutoff_distance skin strain i j o = 0) := by
  refine ⟨dOff_char positions cell strain i j o,
    dOff_nonneg positions cell strain i j o, ?_⟩
  intro h
  have hd : dOff positions cell strain i j o = 0 := by
    rw [dOff_char, if_pos h]
  refine ⟨hd, ?_⟩
  unfold entryOff
  rw [hd]
  split
  · rfl
  · rfl

/-- Witness for C3 at a concrete input: a single atom in the unit cube paired
with itself at the zero image offset has squared separation exactly zero, and
both the guarded square root and the masked entry evaluate to zero. -/
theorem C3_zero_guard_witness :
    d2off P1 (1 : Matrix (Fin 3) (Fin 3) ℝ) 0 0 0 ![0, 0, 0] = 0 ∧
    dOff P1 (1 : Matrix (Fin 3) (Fin 3) ℝ) 0 0 0 ![0, 0, 0] = 0 ∧
    entryOff P1 (1 : Matrix (Fin 3) (Fin 3) ℝ) 0.5 0.01 0 0 0 ![0, 0, 0] = 0 := by
  have h := d2off_zero_vec P1 (1 : Matrix (Fin 3) (Fin 3) ℝ) 0 0 ![0, 0, 0]
    rfl rfl rfl
  have h2 := (C3_zero_guard P1 (1 : Matrix (Fin 3) (Fin 3) ℝ) 0.5 0.01 0 0 0
    ![0, 0, 0]).2.2 h
  exact ⟨h, h2.1, h2.2⟩

/-- C4: the dense builder's mask is a strict comparison against
`cutoff_distance + skin`: every entry whose guarded distance is `≥`
`cutoff_distance + skin` is stored as `0`, and every entry strictly below the
threshold is stored unchanged.  In particular a pair exactly at distance
`cutoff+skin` is excluded while one strictly below it is included. -/
theorem C4_cutoff_mask {n : ℕ} (positions : Fin n → Fin 3 → ℝ)
    (cell : Matrix (Fin 3) (Fin 3) ℝ) (cutoff_distance skin : ℝ)
    (strain : Matrix (Fin 3) (Fin 3) ℝ) (i j : Fin n) (o : Fin 3 → ℤ) :
    (cutoff_distance + skin ≤ dOff positions cell strain i j o →
      entryOff positions cell cutoff_distance skin strain i j o = 0) ∧
    (dOff positions cell strain i j o < cutoff_distance + skin →
      entryOff positions cell cutoff_distance skin strain i j o
        = dOff positions cell strain i j o) := by
  constructor
  · intro h
    unfold entryOff
    rw [if_neg (not_lt.mpr h)]
  · intro h
    unfold entryOff
    rw [if_pos h]

/-- Witness for C4: with cutoff 0.5 and skin 0.1 in the unit cube, the pair at
separation exactly 0.6 = cutoff+skin is masked to zero, while the same pair
through the (-1,0,0) image at separation 0.4 is stored unchanged. -/
theorem C4_cutoff_mask_witness :
    (0.5 + 0.1 ≤ dOff P2 (1 : Matrix (Fin 3) (Fin 3) ℝ) 0 0 1 ![0, 0, 0] ∧
      entryOff P2 (1 : Matrix (Fin 3) (Fin 3) ℝ) 0.5 0.1 0 0 1 ![0, 0, 0] = 0) ∧
    (dOff P2 (1 : Matrix (Fin 3) (Fin 3) ℝ) 0 0 1 ![-1, 0, 0] < 0.5 + 0.1 ∧
      entryOff P2 (1 : Matrix (Fin 3) (Fin 3) ℝ) 0.5 0.1 0 0 1 ![-1, 0, 0]
        = dOff P2 (1 : Matrix (Fin 3) (Fin 3) ℝ) 0 0 1 ![-1, 0, 0]) := by
  have e36 : d2off P2 (1 : Matrix (Fin 3) (Fin 3) ℝ) 0 0 1 ![0, 0, 0]
      = 0.36 := by
    rw [d2off_one, Fin.sum_univ_three]
    norm_num [P2]
  have ed : dOff P2 (1 : Matrix (Fin 3) (Fin 3) ℝ) 0 0 1 ![0, 0, 0] = 0.6 := by
    rw [dOff_char, e36, if_neg (by norm_num : (0.36 : ℝ) ≠ 0),
      show (0.36 : ℝ) = 0.6 ^ 2 by norm_num, Real.sqrt_sq (by norm_num)]
  have e16 : d2off P2 (1 : Matrix (Fin 3) (Fin 3) ℝ) 0 0 1 ![-1, 0, 0]
      = 0.16 := by
    rw [d2off_one, Fin.sum_univ_three]
    norm_num [P2]
  have ed2 : dOff P2 (1 : Matrix (Fin 3) (Fin 3) ℝ) 0 0 1 ![-1, 0, 0]
      = 0.4 := by
    rw [dOff_char, e16, if_neg (by norm_num : (0.16 : ℝ) ≠ 0),
      show (0.16 : ℝ) = 0.4 ^ 2 by norm_num, Real.sqrt_sq (by norm_num)]
  constructor
  · have hge : (0.5 : ℝ) + 0.1
        ≤ dOff P2 (1 : Matrix (Fin 3) (Fin 3) ℝ) 0 0 1 ![0, 0, 0] := by
      rw [ed]
      norm_num
    exact ⟨hge, (C4_cutoff_mask P2 (1 : Matrix (Fin 3) (Fin 3) ℝ) 0.5 0.1 0 0 1
      ![0, 0, 0]).1 hge⟩
  · have hlt : dOff P2 (1 : Matrix (Fin 3) (Fin 3) ℝ) 0 0 1 ![-1, 0, 0]
        < 0.5 + 0.1 := by
      rw [ed2]
      norm_num
    exact ⟨hlt, (C4_cutoff_mask P2 (1 : Matrix (Fin 3) (Fin 3) ℝ) 0.5 0.1 0 0 1
      ![-1, 0, 0]).2 hlt⟩

/-- C10: every entry of the dense distance tensor is a nonnegative real, and is
either exactly 0 or lies strictly between 0 and `cutoff_distance + skin` — so a
positive stored value always denotes an in-cutoff pair and 0 is the only
sentinel value.  This holds for every input, in particular for every invertible
cell and nonnegative cutoff and skin. -/
theorem C10_entry_invariant {n : ℕ} (positions : Fin n → Fin 3 → ℝ)
    (cell : Matrix (Fin 3) (Fin 3) ℝ) (cutoff_distance skin : ℝ)
    (strain : Matrix (Fin 3) (Fin 3) ℝ) (i j : Fin n) (o : Fin 3 → ℤ) :
    0 ≤ entryOff positions cell cutoff_distance skin strain i j o ∧
    (entryOff positions cell cutoff_distance skin strain i j o = 0 ∨
      (0 < entryOff positions cell cutoff_distance skin strain i j o ∧
        entryOff positions cell cutoff_distance skin strain i j o
          < cutoff_distance + skin)) := by
  unfold entryOff
  by_cases h : dOff positions cell strain i j o < cutoff_distance + skin
  · rw [if_pos h]
    refine ⟨dOff_nonneg positions cell strain i j o, ?_⟩
    rcases eq_or_lt_of_le (dOff_nonneg positions cell strain i j o) with he | hl
    · exact Or.inl he.symm
    · exact Or.inr ⟨hl, h⟩
  · rw [if_neg h]
    exact ⟨le_refl 0, Or.inl rfl⟩

/-- C8: `get_neighbors(i, distances, offsets, oneway)` returns exactly the
(neighbor index, image offset) pairs whose stored distance for atom `i` is
strictly positive (in row-major order over both ordered directions and over
atom `i`'s own images), and the `oneway` flag never changes the result. -/
theorem C8_query {natoms noff : ℕ} (i : Fin natoms)
    (distances : Fin natoms → Fin natoms → Fin noff → ℝ)
    (offsets : Fin noff → Fin 3 → ℤ) :
    (∀ (j : Fin natoms) (v : Fin 3 → ℤ),
      (j, v) ∈ neighborPairs i distances offsets ↔
        ∃ k, 0 < distances i j k ∧ v = offsets k) ∧
    get_neighbors i distances offsets true = get_neighbors i distances offsets false ∧
    ∀ b : Bool, get_neighbors i distances offsets b
      = ((neighborPairs i distances offsets).map Prod.fst,
         (neighborPairs i distances offsets).map Prod.snd) :=
  ⟨fun _ _ => mem_neighborPairs, rfl, fun _ => rfl⟩

/-- Witness for C8 on a one-atom, one-offset tensor whose single entry is
positive: the pair is reported. -/
theorem C8_query_witness :
    ((0 : Fin 1), (![0, 0, 0] : Fin 3 → ℤ)) ∈
      neighborPairs (0 : Fin 1) (fun _ _ _ => (1 : ℝ))
        (fun _ : Fin 1 => ![0, 0, 0]) :=
  ((C8_query (0 : Fin 1) (fun _ _ _ => (1 : ℝ))
    (fun _ : Fin 1 => ![0, 0, 0])).1 0 ![0, 0, 0]).mpr
      ⟨0, by norm_num, rfl⟩

/-- C9 (amended): neither builder validates its arguments — there is no
rejection path for a negative `cutoff_radius` or `skin`; the computation always
returns an ordinary geometric result.  Degenerate thresholds give degenerate
but well-defined outputs: when `cutoff + skin ≤ 0` every dense tensor entry is
masked to 0, and when `cutoff² + skin ≤ 0` the one-way selection at every
candidate offset is empty. -/
theorem C9_no_validation {n : ℕ} (positions : Fin n → Fin 3 → ℝ)
    (cell : Matrix (Fin 3) (Fin 3) ℝ) (cutoff skin : ℝ)
    (strain : Matrix (Fin 3) (Fin 3) ℝ) :
    (cutoff + skin ≤ 0 → ∀ (i j : Fin n) (o : Fin 3 → ℤ),
      entryOff positions cell cutoff skin strain i j o = 0) ∧
    (cutoff ^ 2 + skin ≤ 0 → ∀ (a : Fin n) (o : Fin 3 → ℤ),
      selectList positions cell cutoff skin strain a o = []) := by
  constructor
  · intro h i j o
    unfold entryOff
    rw [if_neg]
    push_neg
    exact le_trans h (dOff_nonneg positions cell strain i j o)
  · intro h a o
    exact selectList_empty positions cell cutoff skin strain h a o

/-- Witness for C9 (amended) at cutoff −1, skin −2: both degenerate conclusions
hold at the concrete single-atom input. -/
theorem C9_no_validation_witness :
    entryOff P1 (1 : Matrix (Fin 3) (Fin 3) ℝ) (-1) (-2) 0 0 0 ![0, 0, 0] = 0 ∧
    selectList P1 (1 : Matrix (Fin 3) (Fin 3) ℝ) (-1) (-2) 0 0 ![0, 0, 0] = [] :=
  ⟨(C9_no_validation P1 (1 : Matrix (Fin 3) (Fin 3) ℝ) (-1) (-2) 0).1
      (by norm_num) 0 0 ![0, 0, 0],
   (C9_no_validation P1 (1 : Matrix (Fin 3) (Fin 3) ℝ) (-1) (-2) 0).2
      (by norm_num) 0 ![0, 0, 0]⟩

/-- C9 counterexample: called with the negative cutoff −1 on a well-formed
single-atom input, both builders return ordinary (empty) results instead of
rejecting the input with an error: `get_distances` returns an empty offsets
list (and an `1×1×0` tensor), and `get_neighbors_oneway` returns empty
neighbor and displacement lists. -/
theorem C9_counterexample :
    (get_distances P1 (1 : Matrix (Fin 3) (Fin 3) ℝ) (-1) 0.01 0).2 = [] ∧
    (get_neighbors_oneway P1 (1 : Matrix (Fin 3) (Fin 3) ℝ) (-1) 0.01 0).1 0 = [] ∧
    (get_neighbors_oneway P1 (1 : Matrix (Fin 3) (Fin 3) ℝ) (-1) 0.01 0).2 0 = [] := by
  have hoff : offsetsList P1 (1 : Matrix (Fin 3) (Fin 3) ℝ) (-1) 0 = [] := by
    unfold offsetsList
    rw [minsZ_P1, maxsZ_P1]
    rw [intRange_nil (by
      have h1 : (⌊-(-1 : ℝ)⌋ : ℤ) = 1 := by norm_num
      have h2 : (⌈(-1 : ℝ)⌉ : ℤ) = -1 := by
        rw [show ((-1 : ℝ)) = ((-1 : ℤ) : ℝ) by norm_num, Int.ceil_intCast]
      omega)]
    rfl
  have hcand : candList (1 : Matrix (Fin 3) (Fin 3) ℝ) (-1) 0 = [] := by
    unfold candList
    have hN : nRep (1 : Matrix (Fin 3) (Fin 3) ℝ) (-1) 0 0 + 1 = 0 := by
      rw [nRep_one]
      norm_num
    rw [hN, intRange_nil (le_refl 0)]
    rfl
  have hop : onewayPairs P1 (1 : Matrix (Fin 3) (Fin 3) ℝ) (-1) 0.01 0 0 = [] := by
    unfold onewayPairs processedList
    rw [hcand]
    rfl
  refine ⟨hoff, ?_, ?_⟩
  · show (onewayPairs P1 (1 : Matrix (Fin 3) (Fin 3) ℝ) (-1) 0.01 0 0).map
      Prod.fst = []
    rw [hop]
    rfl
  · show (onewayPairs P1 (1 : Matrix (Fin 3) (Fin 3) ℝ) (-1) 0.01 0 0).map
      Prod.snd = []
    rw [hop]
    rfl

/-- C5 (amended): in `get_neighbors_oneway` a candidate neighbor is selected
exactly when its squared Cartesian distance is strictly below
`cutoff_radius² + skin` (skin added to the squared cutoff), with the additional
index restriction `j > a` at the all-zero candidate offset; consequently the
two builders' effective inclusion radii (`cutoff+skin` versus
`√(cutoff²+skin)`) differ for every nonnegative cutoff and positive skin with
`2·cutoff + skin ≠ 1` — but not universally, see the counterexample. -/
theorem C5_selection {n : ℕ} (positions : Fin n → Fin 3 → ℝ)
    (cell : Matrix (Fin 3) (Fin 3) ℝ) (cutoff_radius skin : ℝ)
    (strain : Matrix (Fin 3) (Fin 3) ℝ) :
    (∀ (a j : Fin n) (o : Fin 3 → ℤ),
      j ∈ selectList positions cell cutoff_radius skin strain a o ↔
        (onewayKeep cutoff_radius skin (s2 positions cell strain a j o) ∧
          ((o 0 = 0 ∧ o 1 = 0 ∧ o 2 = 0) → a < j))) ∧
    (∀ c s : ℝ, 0 ≤ c → 0 < s → 2 * c + s ≠ 1 →
      {d : ℝ | 0 ≤ d ∧ denseKeep c s d}
        ≠ {d : ℝ | 0 ≤ d ∧ onewayKeep c s (d ^ 2)}) := by
  constructor
  · intro a j o
    rw [mem_selectList]
    exact Iff.rfl
  · intro c s hc hs hne heq
    rcases lt_trichotomy (2 * c + s) 1 with hlt | he | hgt
    · have h1 : (c + s) ∈ {d : ℝ | 0 ≤ d ∧ onewayKeep c s (d ^ 2)} := by
        refine ⟨by linarith, ?_⟩
        unfold onewayKeep
        nlinarith [mul_lt_mul_of_pos_right hlt hs]
      rw [← heq] at h1
      have h2 := h1.2
      unfold denseKeep at h2
      exact lt_irrefl _ h2
    · exact hne he
    · have hpos : (0 : ℝ) ≤ c ^ 2 + s := by positivity
      have h1 : Real.sqrt (c ^ 2 + s) ∈ {d : ℝ | 0 ≤ d ∧ denseKeep c s d} := by
        refine ⟨Real.sqrt_nonneg _, ?_⟩
        unfold denseKeep
        rw [Real.sqrt_lt' (by linarith)]
        nlinarith [mul_lt_mul_of_pos_right hgt hs]
      rw [heq] at h1
      have h2 := h1.2
      unfold onewayKeep at h2
      rw [Real.sq_sqrt hpos] at h2
      exact lt_irrefl _ h2

/-- Witness for C5: the selection characterization at a concrete selected pair
(unit cube, atoms at x = 0 and x = 0.25, cutoff 0.5, skin 0.01), and the
threshold inequality at cutoff 1, skin 1. -/
theorem C5_selection_witness :
    ((1 : Fin 2) ∈ selectList P2w (1 : Matrix (Fin 3) (Fin 3) ℝ) 0.5 0.01 0 0
        ![0, 0, 0] ↔
      (onewayKeep 0.5 0.01 (s2 P2w (1 : Matrix (Fin 3) (Fin 3) ℝ) 0 0 1
          ![0, 0, 0]) ∧
        (((![0, 0, 0] : Fin 3 → ℤ) 0 = 0 ∧ (![0, 0, 0] : Fin 3 → ℤ) 1 = 0 ∧
          (![0, 0, 0] : Fin 3 → ℤ) 2 = 0) → (0 : Fin 2) < 1))) ∧
    {d : ℝ | 0 ≤ d ∧ denseKeep 1 1 d}
      ≠ {d : ℝ | 0 ≤ d ∧ onewayKeep 1 1 (d ^ 2)} :=
  ⟨(C5_selection P2w (1 : Matrix (Fin 3) (Fin 3) ℝ) 0.5 0.01 0).1 0 1 ![0, 0, 0],
   (C5_selection P2w (1 : Matrix (Fin 3) (Fin 3) ℝ) 0.5 0.01 0).2 1 1
     (by norm_num) (by norm_num) (by norm_num)⟩

/-- C5 counterexample: at cutoff 0.45 and (nonzero) skin 0.1 the two effective
inclusion radii coincide — `√(0.45² + 0.1) = 0.55 = 0.45 + 0.1` — so the set of
nonnegative distances accepted by the dense builder's linear test equals the
set accepted by the one-way builder's squared test, refuting the claim that
the two builders apply different effective inclusion radii for every input
with nonzero skin. -/
theorem C5_counterexample :
    {d : ℝ | 0 ≤ d ∧ denseKeep 0.45 0.1 d}
      = {d : ℝ | 0 ≤ d ∧ onewayKeep 0.45 0.1 (d ^ 2)} := by
  ext d
  simp only [Set.mem_setOf_eq]
  unfold denseKeep onewayKeep
  constructor
  · rintro ⟨h0, h1⟩
    exact ⟨h0, by nlinarith⟩
  · rintro ⟨h0, h1⟩
    refine ⟨h0, ?_⟩
    nlinarith

/-- C6: an enumerated candidate offset is skipped exactly when
`n1 = 0 ∧ (n2 < 0 ∨ (n2 = 0 ∧ n3 < 0))`; the zero offset is retained (for
nonnegative cutoff); and for every nonzero offset in the enumerated range
exactly one member of the pair `{+n, −n}` is processed. -/
theorem C6_halfspace_rule (cell : Matrix (Fin 3) (Fin 3) ℝ)
    (cutoff_radius : ℝ) (strain : Matrix (Fin 3) (Fin 3) ℝ) (o : Fin 3 → ℤ) :
    (∀ o' : Fin 3 → ℤ, o' ∈ processedList cell cutoff_radius strain ↔
      (o' ∈ candList cell cutoff_radius strain ∧
        ¬(o' 0 = 0 ∧ (o' 1 < 0 ∨ (o' 1 = 0 ∧ o' 2 < 0))))) ∧
    (0 ≤ cutoff_radius →
      (![0, 0, 0] : Fin 3 → ℤ) ∈ processedList cell cutoff_radius strain) ∧
    (o ∈ candList cell cutoff_radius strain →
      ¬(o 0 = 0 ∧ o 1 = 0 ∧ o 2 = 0) →
      Xor' (o ∈ processedList cell cutoff_radius strain)
        ((fun k => -o k) ∈ processedList cell cutoff_radius strain)) := by
  refine ⟨fun o' => mem_processedList cell cutoff_radius strain,
    fun hc => zeroOff_processed cell cutoff_radius strain hc, ?_⟩
  intro hmem hne
  rw [mem_candList] at hmem
  obtain ⟨⟨h00, h01⟩, ⟨h10, h11⟩, ⟨h20, h21⟩⟩ := hmem
  exact processed_xor cell cutoff_radius strain
    ⟨by omega, h01⟩ ⟨h10, h11⟩ ⟨h20, h21⟩ hne

/-- Witness for C6 at the identity cell with cutoff 1/2 (so each axis range is
[−2,2], or [0,2] on axis 0): the nonzero candidate (0,1,0) is enumerated, and
exactly one of (0,1,0), (0,−1,0) is processed. -/
theorem C6_halfspace_rule_witness :
    Xor' ((![0, 1, 0] : Fin 3 → ℤ) ∈
        processedList (1 : Matrix (Fin 3) (Fin 3) ℝ) 0.5 0)
      ((fun k => -(![0, 1, 0] : Fin 3 → ℤ) k) ∈
        processedList (1 : Matrix (Fin 3) (Fin 3) ℝ) 0.5 0) := by
  have hN : ∀ k, nRep (1 : Matrix (Fin 3) (Fin 3) ℝ) 0.5 0 k = 2 := by
    intro k
    rw [nRep_one]
    norm_num
  refine (C6_halfspace_rule (1 : Matrix (Fin 3) (Fin 3) ℝ) 0.5 0 ![0, 1, 0]).2.2
    ?_ (by norm_num)
  rw [mem_candList, hN 0, hN 1, hN 2]
  norm_num

/-- C7: the one-way output never contains both an entry (atom `a` gets
neighbor `b` at recorded displacement `v`) and the mirrored entry (atom `b`
gets neighbor `a` at `−v`); pairs found at the zero candidate offset (whose
recorded displacement is the wrapping-offset difference) carry a neighbor
index strictly greater than the owning atom; and no atom's pair list contains
a duplicate — so each unordered (pair, image) is reported at most once. -/
theorem C7_no_double_counting {n : ℕ} (positions : Fin n → Fin 3 → ℝ)
    (cell : Matrix (Fin 3) (Fin 3) ℝ) (cutoff_radius skin : ℝ)
    (strain : Matrix (Fin 3) (Fin 3) ℝ) :
    (∀ (a b : Fin n) (v : Fin 3 → ℤ),
      (b, v) ∈ onewayPairs positions cell cutoff_radius skin strain a →
        (a, fun k => -v k) ∉
          onewayPairs positions cell cutoff_radius skin strain b) ∧
    (∀ (a j : Fin n) (v : Fin 3 → ℤ),
      (j, v) ∈ onewayPairs positions cell cutoff_radius skin strain a →
        v = (fun k => wrapOffA positions cell strain j k
          - wrapOffA positions cell strain a k) → a < j) ∧
    (∀ a : Fin n, (onewayPairs positions cell cutoff_radius skin strain a).Nodup) :=
  ⟨oneway_no_mirror positions cell cutoff_radius skin strain,
   oneway_zero_cand positions cell cutoff_radius skin strain,
   nodup_onewayPairs positions cell cutoff_radius skin strain⟩

/-- Witness for C7: in the unit cube with atoms at x = 0 and x = 0.25
(cutoff 0.5, skin 0.01), atom 0 reports neighbor 1 at the zero displacement,
and the mirrored entry is absent from atom 1's list. -/
theorem C7_no_double_counting_witness :
    ((1 : Fin 2), (![0, 0, 0] : Fin 3 → ℤ)) ∈
      onewayPairs P2w (1 : Matrix (Fin 3) (Fin 3) ℝ) 0.5 0.01 0 0 ∧
    ((0 : Fin 2), fun k => -(![0, 0, 0] : Fin 3 → ℤ) k) ∉
      onewayPairs P2w (1 : Matrix (Fin 3) (Fin 3) ℝ) 0.5 0.01 0 1 := by
  have hw : ∀ (b : Fin 2) (k : Fin 3),
      wrapOffA P2w (1 : Matrix (Fin 3) (Fin 3) ℝ) 0 b k = 0 :=
    fun b k => wrapOffA_one_incell P2w P2w_in01 b k
  have hofun : (fun k => (![0, 0, 0] : Fin 3 → ℤ) k
      - wrapOffA P2w (1 : Matrix (Fin 3) (Fin 3) ℝ) 0 1 k
      + wrapOffA P2w (1 : Matrix (Fin 3) (Fin 3) ℝ) 0 0 k)
      = (![0, 0, 0] : Fin 3 → ℤ) := by
    funext k
    rw [hw 1 k, hw 0 k]
    omega
  have hmem : ((1 : Fin 2), (![0, 0, 0] : Fin 3 → ℤ)) ∈
      onewayPairs P2w (1 : Matrix (Fin 3) (Fin 3) ℝ) 0.5 0.01 0 0 := by
    rw [mem_onewayPairs', hofun]
    refine ⟨zeroOff_processed (1 : Matrix (Fin 3) (Fin 3) ℝ) 0.5 0
      (by norm_num), ?_⟩
    rw [mem_selectList]
    constructor
    · have hs2v : s2 P2w (1 : Matrix (Fin 3) (Fin 3) ℝ) 0 0 1 ![0, 0, 0]
          = 0.0625 := by
        rw [s2_one_incell P2w P2w_in01, Fin.sum_univ_three]
        norm_num [P2w]
      rw [hs2v]
      norm_num
    · intro _
      decide
  refine ⟨hmem, ?_⟩
  exact (C7_no_double_counting P2w (1 : Matrix (Fin 3) (Fin 3) ℝ) 0.5 0.01 0).1
    0 1 ![0, 0, 0] hmem

section BoundHelpers

variable {n : ℕ} [NeZero n]
variable (positions : Fin n → Fin 3 → ℝ)
variable (cell : Matrix (Fin 3) (Fin 3) ℝ)
variable (cutoff_distance : ℝ)
variable (strain : Matrix (Fin 3) (Fin 3) ℝ)

lemma minsZ_le_atom (a : Fin n) (k : Fin 3) :
    minsZ positions cell cutoff_distance strain k
      ≤ ⌊fracCoords positions cell strain a k
          - numRepeats cell cutoff_distance strain k⌋ := by
  unfold minsZ
  exact Finset.inf'_le _ (Finset.mem_univ a)

lemma atom_le_maxsZ (a : Fin n) (k : Fin 3) :
    ⌈fracCoords positions cell strain a k
      + numRepeats cell cutoff_distance strain k⌉
      ≤ maxsZ positions cell cutoff_distance strain k := by
  unfold maxsZ
  exact Finset.le_sup' (fun a => ⌈fracCoords positions cell strain a k
    + numRepeats cell cutoff_distance strain k⌉) (Finset.mem_univ a)

end BoundHelpers

/-- C2 (amended): the image offsets enumerated by `get_distances` along each
axis form exactly the integers from `⌊min (frac − repeats)⌋` inclusive up to
`⌈max (frac + repeats)⌉` exclusive — `np.arange` omits the upper endpoint —
and this half-open box still omits no replica that could place an atom
strictly within `cutoff_distance` of a base-cell atom, provided the positions'
fractional coordinates lie in [0, 1). -/
theorem C2_offset_ranges {n : ℕ} [NeZero n] (positions : Fin n → Fin 3 → ℝ)
    (cell : Matrix (Fin 3) (Fin 3) ℝ) (cutoff_distance : ℝ)
    (strain : Matrix (Fin 3) (Fin 3) ℝ)
    (hdet : (strainedCell cell strain).det ≠ 0)
    (hin : ∀ (a : Fin n) (k : Fin 3),
      0 ≤ rawFrac positions cell strain a k ∧
        rawFrac positions cell strain a k < 1)
    (hc : 0 ≤ cutoff_distance) :
    (∀ o : Fin 3 → ℤ, o ∈ offsetsList positions cell cutoff_distance strain ↔
      ∀ k, minsZ positions cell cutoff_distance strain k ≤ o k ∧
        o k < maxsZ positions cell cutoff_distance strain k) ∧
    (∀ (i j : Fin n) (o : Fin 3 → ℤ),
      d2off positions cell strain i j o < cutoff_distance ^ 2 →
      o ∈ offsetsList positions cell cutoff_distance strain) :=
  ⟨fun _ => mem_offsetsList positions cell cutoff_distance strain,
   fun _ _ _ h2 => dense_box positions cell cutoff_distance strain hdet hin hc h2⟩

/-- Witness for C2: at the concrete single-atom input the zero offset is an
enumerated offset, obtained through the coverage direction of the theorem. -/
theorem C2_offset_ranges_witness :
    (![0, 0, 0] : Fin 3 → ℤ) ∈
      offsetsList P1 (1 : Matrix (Fin 3) (Fin 3) ℝ) 0.5 0 := by
  refine (C2_offset_ranges P1 (1 : Matrix (Fin 3) (Fin 3) ℝ) 0.5 0
    det_strainedCell_one P1_rawFrac_in01 (by norm_num)).2 0 0 ![0, 0, 0] ?_
  rw [d2off_zero_vec P1 (1 : Matrix (Fin 3) (Fin 3) ℝ) 0 0 ![0, 0, 0]
    rfl rfl rfl]
  norm_num

/-- C2 counterexample: a single atom at the origin of the unit cube with
cutoff 1 gives `mins = −1` and `maxs = 1` on every axis, yet the offset
(1,0,0) — inside the claimed inclusive range `[-1, 1]` — is not enumerated:
the ranges are half-open, not inclusive. -/
theorem C2_counterexample :
    minsZ P1 (1 : Matrix (Fin 3) (Fin 3) ℝ) 1 0 0 = -1 ∧
    maxsZ P1 (1 : Matrix (Fin 3) (Fin 3) ℝ) 1 0 0 = 1 ∧
    (![1, 0, 0] : Fin 3 → ℤ) ∉
      offsetsList P1 (1 : Matrix (Fin 3) (Fin 3) ℝ) 1 0 := by
  have hm : minsZ P1 (1 : Matrix (Fin 3) (Fin 3) ℝ) 1 0 0 = -1 := by
    rw [minsZ_P1]
    rw [show (-(1 : ℝ)) = ((-1 : ℤ) : ℝ) by norm_num, Int.floor_intCast]
  have hM : maxsZ P1 (1 : Matrix (Fin 3) (Fin 3) ℝ) 1 0 0 = 1 := by
    rw [maxsZ_P1]
    exact Int.ceil_one
  refine ⟨hm, hM, ?_⟩
  rw [mem_offsetsList]
  intro hall
  have h0 := (hall 0).2
  rw [hM] at h0
  have hv : (![1, 0, 0] : Fin 3 → ℤ) 0 = 1 := rfl
  omega

/-- C1 (amended): for an invertible strained cell, positions whose fractional
coordinates lie in [0, 1), nonnegative cutoff and skin, every pair of atoms
(including self-image pairs) whose separation is nonzero and strictly within
the cutoff appears in the output of both builders: `get_distances` enumerates
the pair's image offset and stores the positive separation
`√(d²)` at the corresponding slice, and `get_neighbors_oneway` reports the
pair exactly once per unordered pair — exactly one of the two displacement
representatives is present, and no atom's list contains duplicates. -/
theorem C1_completeness {n : ℕ} [NeZero n] (positions : Fin n → Fin 3 → ℝ)
    (cell : Matrix (Fin 3) (Fin 3) ℝ) (cutoff skin : ℝ)
    (strain : Matrix (Fin 3) (Fin 3) ℝ) (i j : Fin n) (o : Fin 3 → ℤ)
    (hdet : (strainedCell cell strain).det ≠ 0)
    (hin : ∀ (a : Fin n) (k : Fin 3),
      0 ≤ rawFrac positions cell strain a k ∧
        rawFrac positions cell strain a k < 1)
    (hc : 0 ≤ cutoff) (hs : 0 ≤ skin)
    (hpos : 0 < d2off positions cell strain i j o)
    (hlt : d2off positions cell strain i j o < cutoff ^ 2) :
    (o ∈ offsetsList positions cell cutoff strain ∧
      entryOff positions cell cutoff skin strain i j o
        = Real.sqrt (d2off positions cell strain i j o) ∧
      0 < entryOff positions cell cutoff skin strain i j o) ∧
    Xor' ((j, o) ∈ onewayPairs positions cell cutoff skin strain i)
      ((i, fun k => -o k) ∈ onewayPairs positions cell cutoff skin strain j) ∧
    (∀ a : Fin n, (onewayPairs positions cell cutoff skin strain a).Nodup) :=
  ⟨⟨dense_box positions cell cutoff strain hdet hin hc hlt,
    (entry_of_lt positions cell cutoff skin strain hpos hlt hc hs).1,
    (entry_of_lt positions cell cutoff skin strain hpos hlt hc hs).2⟩,
   oneway_exactly_once positions cell cutoff skin strain hdet hc hs hpos hlt,
   nodup_onewayPairs positions cell cutoff skin strain⟩

/-- Witness for C1: in the unit cube with atoms at x = 0 and x = 0.25,
cutoff 0.5 and skin 0.01, the pair (0, 1) at the zero image offset is within
cutoff, is stored as a positive dense entry at the enumerated zero-offset
slice, and is reported by the one-way builder on exactly one side. -/
theorem C1_completeness_witness :
    (![0, 0, 0] : Fin 3 → ℤ) ∈
      offsetsList P2w (1 : Matrix (Fin 3) (Fin 3) ℝ) 0.5 0 ∧
    0 < entryOff P2w (1 : Matrix (Fin 3) (Fin 3) ℝ) 0.5 0.01 0 0 1 ![0, 0, 0] ∧
    Xor' (((1 : Fin 2), (![0, 0, 0] : Fin 3 → ℤ)) ∈
        onewayPairs P2w (1 : Matrix (Fin 3) (Fin 3) ℝ) 0.5 0.01 0 0)
      (((0 : Fin 2), fun k => -(![0, 0, 0] : Fin 3 → ℤ) k) ∈
        onewayPairs P2w (1 : Matrix (Fin 3) (Fin 3) ℝ) 0.5 0.01 0 1) := by
  have hd2 : d2off P2w (1 : Matrix (Fin 3) (Fin 3) ℝ) 0 0 1 ![0, 0, 0]
      = 0.0625 := by
    rw [d2off_one, Fin.sum_univ_three]
    norm_num [P2w]
  have h := C1_completeness P2w (1 : Matrix (Fin 3) (Fin 3) ℝ) 0.5 0.01 0 0 1
    ![0, 0, 0] det_strainedCell_one P2w_rawFrac_in01 (by norm_num) (by norm_num)
    (by rw [hd2]; norm_num) (by rw [hd2]; norm_num)
  exact ⟨h.1.1, h.1.2.2, h.2.1⟩

/-- C1 counterexample: unit cube, atoms at x = 0 and x = 0.6, cutoff 0.5 and
skin 0.1.  The pair (0, 1) at the zero image offset has true separation
0.6 ≤ cutoff + skin, the zero-offset slice exists in the dense tensor, yet
both ordered entries of the pair are stored as 0 (the mask is strict), and the
one-way builder does not report the pair in either direction (its squared test
0.36 < 0.25 + 0.1 fails): a pair at separation exactly `cutoff+skin` appears
in no output, refuting the claim for separations `≤ cutoff + skin`. -/
theorem C1_counterexample :
    dOff P2 (1 : Matrix (Fin 3) (Fin 3) ℝ) 0 0 1 ![0, 0, 0] = 0.6 ∧
    (0.6 : ℝ) ≤ 0.5 + 0.1 ∧
    (![0, 0, 0] : Fin 3 → ℤ) ∈
      offsetsList P2 (1 : Matrix (Fin 3) (Fin 3) ℝ) 0.5 0 ∧
    entryOff P2 (1 : Matrix (Fin 3) (Fin 3) ℝ) 0.5 0.1 0 0 1 ![0, 0, 0] = 0 ∧
    entryOff P2 (1 : Matrix (Fin 3) (Fin 3) ℝ) 0.5 0.1 0 1 0 ![0, 0, 0] = 0 ∧
    ((1 : Fin 2), (![0, 0, 0] : Fin 3 → ℤ)) ∉
      onewayPairs P2 (1 : Matrix (Fin 3) (Fin 3) ℝ) 0.5 0.1 0 0 ∧
    ((0 : Fin 2), (![0, 0, 0] : Fin 3 → ℤ)) ∉
      onewayPairs P2 (1 : Matrix (Fin 3) (Fin 3) ℝ) 0.5 0.1 0 1 := by
  have hP20 : ∀ k : Fin 3, P2 0 k = 0 := by
    intro k
    fin_cases k <;> norm_num [P2]
  have e36 : d2off P2 (1 : Matrix (Fin 3) (Fin 3) ℝ) 0 0 1 ![0, 0, 0]
      = 0.36 := by
    rw [d2off_one, Fin.sum_univ_three]
    norm_num [P2]
  have e36' : d2off P2 (1 : Matrix (Fin 3) (Fin 3) ℝ) 0 1 0 ![0, 0, 0]
      = 0.36 := by
    rw [d2off_one, Fin.sum_univ_three]
    norm_num [P2]
  have ed : dOff P2 (1 : Matrix (Fin 3) (Fin 3) ℝ) 0 0 1 ![0, 0, 0] = 0.6 := by
    rw [dOff_char, e36, if_neg (by norm_num : (0.36 : ℝ) ≠ 0),
      show (0.36 : ℝ) = 0.6 ^ 2 by norm_num, Real.sqrt_sq (by norm_num)]
  have ed' : dOff P2 (1 : Matrix (Fin 3) (Fin 3) ℝ) 0 1 0 ![0, 0, 0] = 0.6 := by
    rw [dOff_char, e36', if_neg (by norm_num : (0.36 : ℝ) ≠ 0),
      show (0.36 : ℝ) = 0.6 ^ 2 by norm_num, Real.sqrt_sq (by norm_num)]
  have hmem : (![0, 0, 0] : Fin 3 → ℤ) ∈
      offsetsList P2 (1 : Matrix (Fin 3) (Fin 3) ℝ) 0.5 0 := by
    rw [mem_offsetsList]
    intro k
    have hf : fracCoords P2 (1 : Matrix (Fin 3) (Fin 3) ℝ) 0 0 k = 0 := by
      rw [fracCoords_one, hP20 k, Int.fract_zero]
    have hz : (![0, 0, 0] : Fin 3 → ℤ) k = 0 := by
      fin_cases k <;> rfl
    constructor
    · have h1 := minsZ_le_atom P2 (1 : Matrix (Fin 3) (Fin 3) ℝ) 0.5 0 0 k
      rw [hf, numRepeats_one] at h1
      have h2 : (⌊(0 : ℝ) - 0.5⌋ : ℤ) = -1 := by
        rw [Int.floor_eq_iff] <;> norm_num
      rw [h2] at h1
      omega
    · have h1 := atom_le_maxsZ P2 (1 : Matrix (Fin 3) (Fin 3) ℝ) 0.5 0 0 k
      rw [hf, numRepeats_one] at h1
      have h2 : (⌈(0 : ℝ) + 0.5⌉ : ℤ) = 1 := by
        rw [Int.ceil_eq_iff] <;> norm_num
      rw [h2] at h1
      omega
  have hent : entryOff P2 (1 : Matrix (Fin 3) (Fin 3) ℝ) 0.5 0.1 0 0 1
      ![0, 0, 0] = 0 := by
    unfold entryOff
    rw [ed, if_neg (by norm_num)]
  have hent' : entryOff P2 (1 : Matrix (Fin 3) (Fin 3) ℝ) 0.5 0.1 0 1 0
      ![0, 0, 0] = 0 := by
    unfold entryOff
    rw [ed', if_neg (by norm_num)]
  have hwP2 : ∀ (b : Fin 2) (k : Fin 3),
      wrapOffA P2 (1 : Matrix (Fin 3) (Fin 3) ℝ) 0 b k = 0 :=
    fun b k => wrapOffA_one_incell P2 P2_in01 b k
  have hnot1 : ((1 : Fin 2), (![0, 0, 0] : Fin 3 → ℤ)) ∉
      onewayPairs P2 (1 : Matrix (Fin 3) (Fin 3) ℝ) 0.5 0.1 0 0 := by
    intro hmem1
    have hofun : (fun k => (![0, 0, 0] : Fin 3 → ℤ) k
        - wrapOffA P2 (1 : Matrix (Fin 3) (Fin 3) ℝ) 0 1 k
        + wrapOffA P2 (1 : Matrix (Fin 3) (Fin 3) ℝ) 0 0 k)
        = (![0, 0, 0] : Fin 3 → ℤ) := by
      funext k
      rw [hwP2 1 k, hwP2 0 k]
      omega
    rw [mem_onewayPairs', hofun, mem_selectList] at hmem1
    have hs2v : s2 P2 (1 : Matrix (Fin 3) (Fin 3) ℝ) 0 0 1 ![0, 0, 0]
        = 0.36 := by
      rw [s2_one_incell P2 P2_in01, Fin.sum_univ_three]
      norm_num [P2]
    have hcontra := hmem1.2.1
    rw [hs2v] at hcontra
    norm_num at hcontra
  have hnot2 : ((0 : Fin 2), (![0, 0, 0] : Fin 3 → ℤ)) ∉
      onewayPairs P2 (1 : Matrix (Fin 3) (Fin 3) ℝ) 0.5 0.1 0 1 := by
    intro hmem2
    have hofun : (fun k => (![0, 0, 0] : Fin 3 → ℤ) k
        - wrapOffA P2 (1 : Matrix (Fin 3) (Fin 3) ℝ) 0 0 k
        + wrapOffA P2 (1 : Matrix (Fin 3) (Fin 3) ℝ) 0 1 k)
        = (![0, 0, 0] : Fin 3 → ℤ) := by
      funext k
      rw [hwP2 1 k, hwP2 0 k]
      omega
    rw [mem_onewayPairs', hofun, mem_selectList] at hmem2
    have hs2v : s2 P2 (1 : Matrix (Fin 3) (Fin 3) ℝ) 0 1 0 ![0, 0, 0]
        = 0.36 := by
      rw [s2_one_incell P2 P2_in01, Fin.sum_univ_three]
      norm_num [P2]
    have hcontra := hmem2.2.1
    rw [hs2v] at hcontra
    norm_num at hcontra
  exact ⟨ed, by norm_num, hmem, hent, hent', hnot1, hnot2⟩

end DAP
